import Mathlib

/-!
# Verification of the ParlAI classification-metrics core

Shallow embedding of the mergeable classification-metrics engine from
`parlai/core/torch_classifier_agent.py`:

* `ConfusionMatrixMetric` (with its derived views `PrecisionMetric`,
  `RecallMetric`, `ClassificationF1Metric`),
* `WeightedF1Metric`,
* `AUCMetrics` (threshold-grid ROC accumulator).

Python numeric scalars are modelled as `ℚ` (exact arithmetic; the spec's
"within floating-point tolerance" statements are settled as exact equalities),
class labels as `ℕ`, Python dictionaries as association lists, and fallible
code paths (assertion failures, `IndexError`, `KeyError`, `ZeroDivisionError`,
sklearn `ValueError`) as `Option`/`Except` results.
-/

namespace ParlAI

/-- The concrete dynamic class of a confusion-matrix accumulator.  The Python
code distinguishes the base class and the three derived views only through the
dynamic type (`type(self)(...)`), which we model as an explicit tag. -/
inductive CMKind where
  | base
  | precision
  | recall
  | f1
deriving DecidableEq

/-- `ConfusionMatrixMetric`: raw TP/TN/FP/FN counters (`TScalar`, modelled as
`ℚ`), tagged with the concrete dynamic subtype. -/
structure ConfusionMatrixMetric where
  kind : CMKind
  truePositives : ℚ
  trueNegatives : ℚ
  falsePositives : ℚ
  falseNegatives : ℚ
deriving DecidableEq

namespace ConfusionMatrixMetric

/-- `ConfusionMatrixMetric.__add__`: `None` is the identity; otherwise the
code asserts `isinstance(other, ConfusionMatrixMetric)` (which any value of
this type satisfies — it does not compare concrete subtypes), adds the four
counters element-wise, and builds the result with `type(self)(...)`, i.e. the
left operand's concrete class. -/
def add (self : ConfusionMatrixMetric) (other : Option ConfusionMatrixMetric) :
    ConfusionMatrixMetric :=
  match other with
  | none => self
  | some o =>
      { kind := self.kind
        truePositives := self.truePositives + o.truePositives
        trueNegatives := self.trueNegatives + o.trueNegatives
        falsePositives := self.falsePositives + o.falsePositives
        falseNegatives := self.falseNegatives + o.falseNegatives }

/-- `ConfusionMatrixMetric.macro_average` (a constant property on the base
class, inherited by all derived views). -/
def macroAverage (_self : ConfusionMatrixMetric) : Bool := true

end ConfusionMatrixMetric

/-- `PrecisionMetric.value`. -/
def PrecisionMetric.value (self : ConfusionMatrixMetric) : ℚ :=
  if self.truePositives = 0 then 0
  else self.truePositives / (self.truePositives + self.falsePositives)

/-- `RecallMetric.value`. -/
def RecallMetric.value (self : ConfusionMatrixMetric) : ℚ :=
  if self.truePositives = 0 then 0
  else self.truePositives / (self.truePositives + self.falseNegatives)

/-- `ClassificationF1Metric.value`. -/
def ClassificationF1Metric.value (self : ConfusionMatrixMetric) : ℚ :=
  if self.truePositives = 0 then 0
  else
    let numer := 2 * self.truePositives
    let denom := numer + self.falseNegatives + self.falsePositives
    numer / denom

/-- Dynamic dispatch of `.value()` on a confusion-matrix accumulator: the three
derived classes each override the abstract `Metric.value`. (`CMKind.base` has
no concrete `value`; it is never dispatched on by this code.) -/
def cmValue (self : ConfusionMatrixMetric) : ℚ :=
  match self.kind with
  | .base => 0
  | .precision => PrecisionMetric.value self
  | .recall => RecallMetric.value self
  | .f1 => ClassificationF1Metric.value self

/-- `WeightedF1Metric`: a mapping (Python `dict`, modelled as an association
list in insertion order) from class label to its `ClassificationF1Metric`. -/
structure WeightedF1Metric where
  values : List (ℕ × ConfusionMatrixMetric)
deriving DecidableEq

namespace WeightedF1Metric

/-- `WeightedF1Metric.macro_average`. -/
def macroAverage (_self : WeightedF1Metric) : Bool := true

/-- `WeightedF1Metric.value`: `0.0` on an empty mapping; otherwise
`total_examples` is read from the first entry of the mapping and each class
contributes `f1.value() * (actual_positive / total_examples)`. -/
def value (self : WeightedF1Metric) : ℚ :=
  match self.values with
  | [] => 0
  | v0 :: _ =>
      let total := v0.2.truePositives + v0.2.trueNegatives +
        v0.2.falsePositives + v0.2.falseNegatives
      self.values.foldl
        (fun acc kv =>
          acc + ClassificationF1Metric.value kv.2 *
            ((kv.2.truePositives + kv.2.falseNegatives) / total))
        0

end WeightedF1Metric

/-! ## AUCMetrics -/

/-- `math.floor(prob * CONST) / CONST` with `CONST = 10 ** max_dec_places`. -/
def floorProb (d : ℕ) (p : ℚ) : ℚ := (⌊p * 10 ^ d⌋ : ℚ) / 10 ^ d

/-- `math.ceil(prob * CONST) / CONST` with `CONST = 10 ** max_dec_places`. -/
def ceilProb (d : ℕ) (p : ℚ) : ℚ := (⌈p * 10 ^ d⌉ : ℚ) / 10 ^ d

/-- Insert a value into an ascending duplicate-free list, keeping it ascending
and duplicate-free (one step of `sorted(set(...))`). -/
def insertSortedDedup (x : ℚ) : List ℚ → List ℚ
  | [] => [x]
  | y :: ys =>
      if x < y then x :: y :: ys
      else if x = y then y :: ys
      else y :: insertSortedDedup x ys

/-- Python's `sorted(set(l))`: the ascending enumeration of the distinct
elements of `l`. -/
def sortedSet (l : List ℚ) : List ℚ := l.foldr insertSortedDedup []

/-- `np.searchsorted(l, x, side='left')` on an ascending list: the number of
elements strictly below `x` (the leftmost insertion point). -/
def searchsortedLeft (l : List ℚ) (x : ℚ) : ℕ :=
  (l.takeWhile (fun y => decide (y < x))).length

/-- `np.searchsorted(l, x, side='right')` on an ascending list: the number of
elements at or below `x` (the rightmost insertion point). -/
def searchsortedRight (l : List ℚ) (x : ℚ) : ℕ :=
  (l.takeWhile (fun y => decide (y ≤ x))).length

/-- The bucket-boundary index computed in `raw_data_to_auc`:
`ind = np.searchsorted(sorted_thresholds, prob, side='left')`, then
`ind += 1` when `ind < len(sorted_thresholds)` and the threshold at `ind` is
exactly `prob`. -/
def insertIndex (keys : List ℚ) (prob : ℚ) : ℕ :=
  let ind := searchsortedLeft keys prob
  if ind < keys.length ∧ keys.getD ind 0 = prob then ind + 1 else ind

/-- `values[thres][effected_ind] += 1`: one unit added to the false-positive
(`isPos = false`) or true-positive (`isPos = true`) component. -/
def bumpVal (isPos : Bool) (v : ℕ × ℕ) : ℕ × ℕ :=
  if isPos then (v.1, v.2 + 1) else (v.1 + 1, v.2)

/-- `for thres in sorted_thresholds[:ind]: values[thres][effected_ind] += 1`,
on the list of per-threshold counters kept parallel to the (duplicate-free)
sorted threshold list: bump the first `ind` counters. -/
def bumpBelow (isPos : Bool) : ℕ → List (ℕ × ℕ) → List (ℕ × ℕ)
  | _, [] => []
  | 0, vs => vs
  | n + 1, v :: vs => bumpVal isPos v :: bumpBelow isPos n vs

/-- The threshold candidates collected into `all_thresholds`: the sentinel
`1.5` plus, for every observed probability, its floor and ceiling on the
decimal grid. -/
def threshCands (d : ℕ) (samples : List (ℕ × ℚ)) : List ℚ :=
  (3 / 2 : ℚ) :: samples.flatMap (fun s => [floorProb d s.2, ceilProb d s.2])

/-- `AUCMetrics`: per-threshold cumulative `(false positives, true positives)`
buckets (`key_vals`, a dict modelled as an association list in ascending key
order), total positive and negative sample counts, the ascending threshold
grid, and the positive class label. -/
structure AUCMetrics where
  keyVals : List (ℚ × (ℕ × ℕ))
  posCnt : ℕ
  negCnt : ℕ
  sortedKeys : List ℚ
  className : ℕ
deriving DecidableEq

namespace AUCMetrics

/-- `AUCMetrics.macro_average`. -/
def macroAverage (_self : AUCMetrics) : Bool := false

/-- `AUCMetrics.raw_data_to_auc` on a list of `(true_label, class_prob)`
pairs: empty input yields the empty accumulator; otherwise count positives and
negatives, build the threshold grid `sorted({1.5} ∪ {floor(p), ceil(p)})` over
the decimal grid, and let every sample bump all thresholds at or below its
probability. -/
def rawDataToAuc (maxDecPlaces : ℕ) (className : ℕ)
    (samples : List (ℕ × ℚ)) : AUCMetrics :=
  if samples = [] then ⟨[], 0, 0, [], className⟩
  else
    let posCnt := samples.countP (fun s => decide (className = s.1))
    let negCnt := samples.length - posCnt
    let sortedThresholds := sortedSet (threshCands maxDecPlaces samples)
    let vals := samples.foldl
      (fun vals s =>
        bumpBelow (decide (s.1 = className)) (insertIndex sortedThresholds s.2) vals)
      (sortedThresholds.map fun _ => (0, 0))
    ⟨sortedThresholds.zip vals, posCnt, negCnt, sortedThresholds, className⟩

/-- `dict.get` / `dict[...]` on `key_vals`: the value stored at the first
(unique) matching key, `none` when the key is absent. -/
def dictGet (t : ℚ) : List (ℚ × (ℕ × ℕ)) → Option (ℕ × ℕ)
  | [] => none
  | kv :: rest => if kv.1 = t then some kv.2 else dictGet t rest

/-- `AUCMetrics._get_fp_tp`: exact dict hit wins; otherwise a right-side
search for the next threshold strictly above, clamped to the last grid entry.
`none` models the `IndexError` raised by `sorted_keys[-1]` on an empty grid
and the `KeyError` of a missing dict key. -/
def getFpTp (self : AUCMetrics) (threshold : ℚ) : Option (ℕ × ℕ) :=
  match dictGet threshold self.keyVals with
  | some v => some v
  | none =>
      if self.sortedKeys.length = 0 then none
      else
        let tmpKey := searchsortedRight self.sortedKeys threshold
        let tmpKey :=
          if self.sortedKeys.length ≤ tmpKey then self.sortedKeys.length - 1 else tmpKey
        dictGet (self.sortedKeys.getD tmpKey 0) self.keyVals

/-- One head's turn of `_merge_sorted_no_dupes`'s while-loop, with `x :: xs`
the unconsumed first array: while the second array's head is below `x` only
the second pointer advances (`curr_min = arr2[i2]`, emit it); on a tie both
pointers advance and on anything larger only the first advances, emitting `x`
and handing the remaining second array to `rest`, the merge continued past
`x`; when the second array runs out, `arr_together + arr1[i1:]` appends
`x :: xs`. -/
def mergeStep (rest : List ℚ → List ℚ) (x : ℚ) (xs : List ℚ) :
    List ℚ → List ℚ
  | [] => x :: xs
  | y :: ys =>
      if x > y then y :: mergeStep rest x xs ys
      else if x = y then x :: rest ys
      else x :: rest (y :: ys)

/-- `AUCMetrics._merge_sorted_no_dupes`: the two-pointer merge of two sorted
duplicate-free lists, advancing both pointers on ties and appending the
remainders. -/
def mergeSortedNoDupes : List ℚ → List ℚ → List ℚ
  | [], arr2 => arr2
  | x :: xs, arr2 => mergeStep (mergeSortedNoDupes xs) x xs arr2

/-- `AUCMetrics.__add__`: `None` is the identity; the class labels must agree
(assertion failure modelled as `none`); counts add; the grids merge by sorted
union; each merged threshold's bucket is the sum of the two sides'
`_get_fp_tp` lookups (whose failures propagate). -/
def add (self : AUCMetrics) (other : Option AUCMetrics) : Option AUCMetrics :=
  match other with
  | none => some self
  | some o =>
      if o.className = self.className then
        let allNeg := self.negCnt + o.negCnt
        let allPos := self.posCnt + o.posCnt
        let allThresholds := mergeSortedNoDupes self.sortedKeys o.sortedKeys
        (allThresholds.mapM (fun threshold => do
            let sv ← getFpTp self threshold
            let ov ← getFpTp o threshold
            pure (threshold, (sv.1 + ov.1, sv.2 + ov.2)))).map
          (fun allVals => ⟨allVals, allPos, allNeg, allThresholds, self.className⟩)
      else none

end AUCMetrics

/-- The ways `AUCMetrics.value` can raise: a `KeyError` on a threshold absent
from `key_vals`, a `ZeroDivisionError` from a zero positive or negative count,
and sklearn `auc`'s two `ValueError`s (fewer than two curve points, `x`
neither increasing nor decreasing). -/
inductive AUCError where
  | keyMissing
  | divByZero
  | tooFewPoints
  | notMonotonic
deriving DecidableEq

instance {ε α : Type} [DecidableEq ε] [DecidableEq α] : DecidableEq (Except ε α) :=
  fun x y =>
    match x, y with
    | .error e, .error f => decidable_of_iff (e = f) (by simp)
    | .ok a, .ok b => decidable_of_iff (a = b) (by simp)
    | .error _, .ok _ => isFalse (by simp)
    | .ok _, .error _ => isFalse (by simp)

/-- `np.trapz(y, x)`: the trapezoidal rule over consecutive points. -/
def trapz : List ℚ → List ℚ → ℚ
  | y0 :: y1 :: ys, x0 :: x1 :: xs => (x1 - x0) * (y0 + y1) / 2 + trapz (y1 :: ys) (x1 :: xs)
  | _, _ => 0

/-- `sklearn.metrics.auc(x, y)`: requires at least two points; if the `x`
differences ever go down they must all be non-increasing (else `ValueError`),
and the trapezoidal area is negated in that descending case. -/
def sklearnAuc (x y : List ℚ) : Except AUCError ℚ :=
  if x.length < 2 then .error .tooFewPoints
  else
    let dx := (x.zip x.tail).map (fun p => p.2 - p.1)
    if dx.any (fun v => decide (v < 0)) then
      if dx.all (fun v => decide (v ≤ 0)) then .ok (-trapz y x)
      else .error .notMonotonic
    else .ok (trapz y x)

namespace AUCMetrics

/-- `AUCMetrics.value`: walk the grid in ascending order, reading each bucket
from `key_vals` and dividing by the negative / positive totals (the per-key
`KeyError` and `ZeroDivisionError` surface in loop order), then report
`1 - auc(fpr, tpr)`. -/
def value (self : AUCMetrics) : Except AUCError ℚ :=
  match self.sortedKeys.mapM (fun key =>
      match dictGet key self.keyVals with
      | none => Except.error AUCError.keyMissing
      | some v =>
          if self.negCnt = 0 then Except.error AUCError.divByZero
          else if self.posCnt = 0 then Except.error AUCError.divByZero
          else Except.ok (((v.1 : ℚ) / self.negCnt, (v.2 : ℚ) / self.posCnt))) with
  | .error e => .error e
  | .ok pts => (sklearnAuc (pts.map Prod.fst) (pts.map Prod.snd)).map (fun a => 1 - a)

/-- Reduce a list of accumulators with the `+` operator (left fold, failures
propagating); empty reductions do not arise. -/
def mergeAll : List AUCMetrics → Option AUCMetrics
  | [] => none
  | h :: t => t.foldl (fun acc x => acc.bind (fun a => a.add (some x))) (some h)

/-- The representation invariant every accumulator built by the class itself
satisfies: the grid is strictly ascending and `key_vals` is the dict over
exactly the grid keys, in grid order. -/
def wf (self : AUCMetrics) : Prop :=
  self.sortedKeys.Pairwise (· < ·) ∧ self.keyVals.map Prod.fst = self.sortedKeys

instance : DecidablePred wf := fun a => by
  unfold wf; infer_instance

/-- The accumulators reachable through the class's construction interface:
results of `raw_data_to_auc` and of successful merges of reachable
accumulators. -/
inductive Reachable : AUCMetrics → Prop where
  | raw : ∀ (d c : ℕ) (samples : List (ℕ × ℚ)), Reachable (rawDataToAuc d c samples)
  | merge : ∀ {a b c : AUCMetrics}, Reachable a → Reachable b →
      a.add (some b) = some c → Reachable c

end AUCMetrics

/-! ## Helper lemmas -/

/-! ## Derived quantities used by the verification: bucket sums, sample
counts at a threshold, the dict position read by `_get_fp_tp`, bucket
monotonicity, grid alignment and the representation invariant. -/

/-- Componentwise sum of two `(falsePositives, truePositives)` buckets. -/
def addPair (u v : ℕ × ℕ) : ℕ × ℕ := (u.1 + v.1, u.2 + v.2)

/-- The bucket a sample list induces at threshold `t`: the number of samples
with probability at or above `t`, split into (non-`c`-labelled,
`c`-labelled). -/
def cntBucket (c : ℕ) (t : ℚ) (S : List (ℕ × ℚ)) : ℕ × ℕ :=
  (S.countP (fun s => !(decide (s.1 = c)) && decide (t ≤ s.2)),
   S.countP (fun s => decide (s.1 = c) && decide (t ≤ s.2)))

/-- The bucket stored at position `i` of the accumulator's dict. -/
def bucketAt (a : AUCMetrics) (i : ℕ) : ℕ × ℕ := (a.keyVals.map Prod.snd).getD i (0, 0)

/-- The dict position `_get_fp_tp` reads for threshold `t`: the number of grid
keys strictly below `t`, clamped to the last position. -/
def getIdx (a : AUCMetrics) (t : ℚ) : ℕ :=
  min (a.sortedKeys.countP (fun y => decide (y < t))) (a.sortedKeys.length - 1)

/-- Bucket monotonicity: later (higher-threshold) dict entries have
componentwise no larger counts. -/
def Mono (a : AUCMetrics) : Prop :=
  a.keyVals.Pairwise (fun u v => v.2.1 ≤ u.2.1 ∧ v.2.2 ≤ u.2.2)

/-- A threshold on the decimal grid (or the sentinel `1.5`): exactly the
values `raw_data_to_auc` ever puts in a grid. -/
def Aligned15 (d : ℕ) (t : ℚ) : Prop :=
  (∃ z : ℤ, t = (z : ℚ) / 10 ^ d) ∨ t = 3 / 2

/-- The accumulator `a` faithfully summarizes the sample list `S`: correct
counts and class, grid membership given by `S`'s threshold candidates, and
`_get_fp_tp` answering every grid-aligned query with `S`'s exact cumulative
bucket. -/
def RepInv (d c : ℕ) (S : List (ℕ × ℚ)) (a : AUCMetrics) : Prop :=
  a.wf ∧ a.sortedKeys ≠ [] ∧ a.className = c ∧
  a.posCnt = S.countP (fun s => decide (c = s.1)) ∧
  a.negCnt = S.length - S.countP (fun s => decide (c = s.1)) ∧
  (∀ z, z ∈ a.sortedKeys ↔ z ∈ threshCands d S) ∧
  (∀ t, Aligned15 d t → a.getFpTp t = some (cntBucket c t S))


theorem foldl_add_map {α : Type} (f : α → ℚ) (l : List α) (init : ℚ) :
    l.foldl (fun acc x => acc + f x) init = init + (l.map f).sum := by
  induction l generalizing init with
  | nil => simp
  | cons h t ih => simp [ih, add_assoc]

/-! ## Claims -/

open AUCMetrics

/-- Claim C2, counterexample: merging a `PrecisionMetric` with a
`RecallMetric` does **not** fail: the `isinstance` assertion only checks
membership in the `ConfusionMatrixMetric` base class, so the merge silently
returns a result — a `PrecisionMetric` (the left operand's subtype) carrying
the element-wise sums.  This refutes the claim that such a merge fails fast
and never returns a result. -/
theorem C2_counterexample :
    ConfusionMatrixMetric.add ⟨.precision, 1, 2, 3, 4⟩ (some ⟨.recall, 10, 20, 30, 40⟩)
      = ⟨.precision, 11, 22, 33, 44⟩ ∧
    (ConfusionMatrixMetric.add ⟨.precision, 1, 2, 3, 4⟩
      (some ⟨.recall, 10, 20, 30, 40⟩)).kind ≠ CMKind.recall := by
  refine ⟨by norm_num [ConfusionMatrixMetric.add], by simp [ConfusionMatrixMetric.add]⟩

/-- Claim C2, amended: merging two `ConfusionMatrixMetric`s of different
concrete derived subtypes does not fail at all — the assertion admits any
`ConfusionMatrixMetric`, and the merge always returns the left operand's
concrete subtype with element-wise summed counters (the right operand's
subtype is silently discarded). -/
theorem C2_mixed_subtype_merge (a b : ConfusionMatrixMetric) :
    a.add (some b) = ⟨a.kind, a.truePositives + b.truePositives,
      a.trueNegatives + b.trueNegatives, a.falsePositives + b.falsePositives,
      a.falseNegatives + b.falseNegatives⟩ :=
  rfl

/-- Claim C5: for every confusion-matrix accumulator,
`PrecisionMetric.value() = TP/(TP+FP)`, `RecallMetric.value() = TP/(TP+FN)`,
`ClassificationF1Metric.value() = 2·TP/(2·TP+FP+FN)`; each of the three
returns exactly `0` whenever `TP = 0` regardless of the other counters
(including all four `0`), and for `TP ≠ 0` every denominator is strictly
positive, so no division by zero occurs. -/
theorem C5_precision_recall_f1_formulas (tp tn fp fn : ℚ)
    (h1 : 0 ≤ tp) (h2 : 0 ≤ fp) (h3 : 0 ≤ fn) :
    PrecisionMetric.value ⟨.precision, tp, tn, fp, fn⟩ = tp / (tp + fp) ∧
    RecallMetric.value ⟨.recall, tp, tn, fp, fn⟩ = tp / (tp + fn) ∧
    ClassificationF1Metric.value ⟨.f1, tp, tn, fp, fn⟩ = 2 * tp / (2 * tp + fp + fn) ∧
    (tp = 0 → PrecisionMetric.value ⟨.precision, tp, tn, fp, fn⟩ = 0 ∧
      RecallMetric.value ⟨.recall, tp, tn, fp, fn⟩ = 0 ∧
      ClassificationF1Metric.value ⟨.f1, tp, tn, fp, fn⟩ = 0) ∧
    (tp ≠ 0 → 0 < tp + fp ∧ 0 < tp + fn ∧ 0 < 2 * tp + fp + fn) := by
  have hpos : tp ≠ 0 → 0 < tp := fun h => lt_of_le_of_ne h1 (Ne.symm h)
  refine ⟨?_, ?_, ?_, ?_, ?_⟩
  · by_cases h : tp = 0 <;>
      simp [PrecisionMetric.value, h, zero_div]
  · by_cases h : tp = 0 <;>
      simp [RecallMetric.value, h, zero_div]
  · by_cases h : tp = 0
    · simp [ClassificationF1Metric.value, h, zero_div]
    · simp only [ClassificationF1Metric.value, h, if_false]
      ring_nf
  · intro h
    simp [PrecisionMetric.value, RecallMetric.value, ClassificationF1Metric.value, h]
  · intro h
    have := hpos h
    refine ⟨by linarith, by linarith, by linarith⟩

/-- Witness for C5 at the concrete counters `TP=0, TN=5, FP=7, FN=9` (the
degenerate `TP = 0` row: all three values are `0` and no division occurs). -/
theorem C5_witness :
    (0 : ℚ) ≤ 0 ∧ (0 : ℚ) ≤ 7 ∧ (0 : ℚ) ≤ 9 ∧
    (PrecisionMetric.value ⟨.precision, 0, 5, 7, 9⟩ = 0 / (0 + 7) ∧
     RecallMetric.value ⟨.recall, 0, 5, 7, 9⟩ = 0 / (0 + 9) ∧
     ClassificationF1Metric.value ⟨.f1, 0, 5, 7, 9⟩ = 2 * 0 / (2 * 0 + 7 + 9) ∧
     ((0 : ℚ) = 0 → PrecisionMetric.value ⟨.precision, 0, 5, 7, 9⟩ = 0 ∧
       RecallMetric.value ⟨.recall, 0, 5, 7, 9⟩ = 0 ∧
       ClassificationF1Metric.value ⟨.f1, 0, 5, 7, 9⟩ = 0) ∧
     ((0 : ℚ) ≠ 0 → 0 < (0 : ℚ) + 7 ∧ 0 < (0 : ℚ) + 9 ∧ 0 < 2 * (0 : ℚ) + 7 + 9)) :=
  ⟨le_refl 0, by norm_num, by norm_num,
    C5_precision_recall_f1_formulas 0 5 7 9 (le_refl 0) (by norm_num) (by norm_num)⟩

/-- Claim C6: `WeightedF1Metric.value()` returns `0` on an empty mapping;
otherwise (when all classes share the same total example count `T`, which is
what makes reading `total_examples` off any single class well defined) it
returns the sum over all classes of `F1.value() * (TP+FN)/T`. -/
theorem C6_weighted_f1_value (w : WeightedF1Metric) (T : ℚ)
    (hT : ∀ kv ∈ w.values, kv.2.truePositives + kv.2.trueNegatives +
      kv.2.falsePositives + kv.2.falseNegatives = T) :
    (w.values = [] → w.value = 0) ∧
    (w.values ≠ [] →
      w.value = (w.values.map (fun kv => ClassificationF1Metric.value kv.2 *
        ((kv.2.truePositives + kv.2.falseNegatives) / T))).sum) := by
  constructor
  · intro h
    simp [WeightedF1Metric.value, h]
  · intro h
    match hv : w.values with
    | [] => exact absurd hv h
    | v0 :: rest =>
      have hT0 := hT v0 (by rw [hv]; exact List.mem_cons_self v0 rest)
      simp only [WeightedF1Metric.value, hv]
      rw [foldl_add_map
        (fun kv : ℕ × ConfusionMatrixMetric => ClassificationF1Metric.value kv.2 *
          ((kv.2.truePositives + kv.2.falseNegatives) /
            (v0.2.truePositives + v0.2.trueNegatives +
              v0.2.falsePositives + v0.2.falseNegatives)))]
      rw [hT0, zero_add]

/-- Witness for C6 at the spec's own scenario
`{A ↦ F1(TP=1,TN=1,FP=0,FN=0), B ↦ F1(TP=0,TN=1,FP=0,FN=1)}` (shared total
`T = 2`). -/
theorem C6_witness :
    (∀ kv ∈ (WeightedF1Metric.mk
        [(0, ⟨.f1, 1, 1, 0, 0⟩), (1, ⟨.f1, 0, 1, 0, 1⟩)]).values,
      kv.2.truePositives + kv.2.trueNegatives + kv.2.falsePositives +
        kv.2.falseNegatives = (2 : ℚ)) ∧
    ((WeightedF1Metric.mk
        [(0, ⟨.f1, 1, 1, 0, 0⟩), (1, ⟨.f1, 0, 1, 0, 1⟩)]).values = [] →
      (WeightedF1Metric.mk
        [(0, ⟨.f1, 1, 1, 0, 0⟩), (1, ⟨.f1, 0, 1, 0, 1⟩)]).value = 0) ∧
    ((WeightedF1Metric.mk
        [(0, ⟨.f1, 1, 1, 0, 0⟩), (1, ⟨.f1, 0, 1, 0, 1⟩)]).values ≠ [] →
      (WeightedF1Metric.mk
        [(0, ⟨.f1, 1, 1, 0, 0⟩), (1, ⟨.f1, 0, 1, 0, 1⟩)]).value =
      ((WeightedF1Metric.mk
        [(0, ⟨.f1, 1, 1, 0, 0⟩), (1, ⟨.f1, 0, 1, 0, 1⟩)]).values.map
          (fun kv => ClassificationF1Metric.value kv.2 *
            ((kv.2.truePositives + kv.2.falseNegatives) / (2 : ℚ)))).sum) := by
  have hT : ∀ kv ∈ (WeightedF1Metric.mk
      [(0, ⟨.f1, 1, 1, 0, 0⟩), (1, ⟨.f1, 0, 1, 0, 1⟩)]).values,
      kv.2.truePositives + kv.2.trueNegatives + kv.2.falsePositives +
        kv.2.falseNegatives = (2 : ℚ) := by
    intro kv h
    simp only [WeightedF1Metric.mk, List.mem_cons, List.mem_singleton] at h
    rcases h with h | h | h
    · rw [h]; norm_num
    · rw [h]; norm_num
    · cases h
  exact ⟨hT, C6_weighted_f1_value _ 2 hT⟩

/-- Claim C7: merging two `AUCMetrics` requires equal `classLabel`s — the
assertion fails (modelled as `none`) otherwise — and whenever a merge result
exists its positive and negative counts are the sums of the operands'. -/
theorem C7_auc_merge_requires_class_label (a b : AUCMetrics) :
    (a.className ≠ b.className → a.add (some b) = none) ∧
    (∀ c, a.add (some b) = some c →
      c.posCnt = a.posCnt + b.posCnt ∧ c.negCnt = a.negCnt + b.negCnt) := by
  constructor
  · intro h
    have hne : ¬b.className = a.className := fun e => h e.symm
    simp only [AUCMetrics.add, hne, if_false]
  · intro c hc
    by_cases hcl : b.className = a.className
    · simp only [AUCMetrics.add, hcl, if_true] at hc
      obtain ⟨vals, -, rfl⟩ := Option.map_eq_some'.mp hc
      exact ⟨rfl, rfl⟩
    · simp only [AUCMetrics.add, hcl, if_false] at hc
      cases hc

/-- Witness for C7: a mismatched-label pair is rejected, and a concrete
successful merge adds the counts. -/
theorem C7_witness :
    ((AUCMetrics.mk [((3:ℚ)/2, (0, 0))] 1 0 [3/2] 0).className ≠
        (AUCMetrics.mk [((3:ℚ)/2, (0, 0))] 1 0 [3/2] 1).className ∧
      (AUCMetrics.mk [((3:ℚ)/2, (0, 0))] 1 0 [3/2] 0).add
        (some (AUCMetrics.mk [((3:ℚ)/2, (0, 0))] 1 0 [3/2] 1)) = none) ∧
    ((AUCMetrics.mk [((3:ℚ)/2, (0, 0))] 2 3 [3/2] 5).add
        (some (AUCMetrics.mk [((3:ℚ)/2, (1, 1))] 4 6 [3/2] 5)) =
        some (AUCMetrics.mk [((3:ℚ)/2, (1, 1))] 6 9 [3/2] 5) ∧
      (AUCMetrics.mk [((3:ℚ)/2, (1, 1))] 6 9 [3/2] 5).posCnt =
        (AUCMetrics.mk [((3:ℚ)/2, (0, 0))] 2 3 [3/2] 5).posCnt +
          (AUCMetrics.mk [((3:ℚ)/2, (1, 1))] 4 6 [3/2] 5).posCnt ∧
      (AUCMetrics.mk [((3:ℚ)/2, (1, 1))] 6 9 [3/2] 5).negCnt =
        (AUCMetrics.mk [((3:ℚ)/2, (0, 0))] 2 3 [3/2] 5).negCnt +
          (AUCMetrics.mk [((3:ℚ)/2, (1, 1))] 4 6 [3/2] 5).negCnt) := by
  have hmerge : (AUCMetrics.mk [((3:ℚ)/2, (0, 0))] 2 3 [3/2] 5).add
      (some (AUCMetrics.mk [((3:ℚ)/2, (1, 1))] 4 6 [3/2] 5)) =
      some (AUCMetrics.mk [((3:ℚ)/2, (1, 1))] 6 9 [3/2] 5) := by
    norm_num [AUCMetrics.add, mergeSortedNoDupes, mergeStep, getFpTp, dictGet,
      List.mapM, List.mapM.loop]
  have hne : (AUCMetrics.mk [((3:ℚ)/2, (0, 0))] 1 0 [3/2] 0).className ≠
      (AUCMetrics.mk [((3:ℚ)/2, (0, 0))] 1 0 [3/2] 1).className := by
    simp
  exact ⟨⟨hne, (C7_auc_merge_requires_class_label _ _).1 hne⟩,
    hmerge, (C7_auc_merge_requires_class_label _ _).2 _ hmerge⟩

/-- Claim C8, counterexample: on the empty accumulator (returned by
`raw_data_to_auc` for empty input), `positiveCount = negativeCount = 0`, yet
`value()` does not surface a division-by-zero error: the per-key loop never
runs, and sklearn's `auc` raises its "at least 2 points are needed"
`ValueError` instead. -/
theorem C8_counterexample :
    (rawDataToAuc 3 0 []).posCnt = 0 ∧ (rawDataToAuc 3 0 []).negCnt = 0 ∧
    (rawDataToAuc 3 0 []).value = .error .tooFewPoints ∧
    (rawDataToAuc 3 0 []).value ≠ .error .divByZero := by
  refine ⟨rfl, rfl, rfl, ?_⟩
  intro h
  have : AUCError.tooFewPoints = AUCError.divByZero := by
    have h0 : (rawDataToAuc 3 0 []).value = .error .tooFewPoints := rfl
    rw [h0] at h
    exact Except.error.inj h
  cases this

/-- Claim C8, amended: when `positiveCount = 0` or `negativeCount = 0`,
`value()` never returns a number (in particular never the sentinels 0 or 1):
with a non-empty grid (and `key_vals` covering the grid, as every accumulator
the class builds does) the error is precisely the division by zero; on an
empty grid it is sklearn's too-few-points `ValueError`. -/
theorem C8_degenerate_value_never_returns (a : AUCMetrics)
    (h : a.posCnt = 0 ∨ a.negCnt = 0) :
    (∀ q : ℚ, a.value ≠ .ok q) ∧
    (a.wf → a.sortedKeys ≠ [] → a.value = .error .divByZero) := by
  have key : ∀ k0 rest, a.sortedKeys = k0 :: rest →
      ∀ e : AUCError, (dictGet k0 a.keyVals = none → e = .keyMissing) →
      ((∃ v, dictGet k0 a.keyVals = some v) → e = .divByZero) →
      a.value = .error e := by
    intro k0 rest hk e he1 he2
    unfold AUCMetrics.value
    rw [hk, List.mapM_cons]
    rcases hd : dictGet k0 a.keyVals with - | v
    · rw [he1 hd]
      simp only [hd, bind, Except.bind]
    · rw [he2 ⟨v, hd⟩]
      rcases h with h | h
      · by_cases hn : a.negCnt = 0
        · simp only [hd, bind, Except.bind, hn, if_true]
        · simp only [hd, bind, Except.bind, hn, if_false, h, if_true]
      · simp only [hd, bind, Except.bind, h, if_true]
  constructor
  · intro q
    rcases hk : a.sortedKeys with - | ⟨k0, rest⟩
    · unfold AUCMetrics.value
      rw [hk, List.mapM_nil]
      intro hcontra
      simp only [pure, Except.pure, sklearnAuc] at hcontra
      norm_num at hcontra
      cases hcontra
    · rcases hd : dictGet k0 a.keyVals with - | v
      · rw [key k0 rest hk .keyMissing (fun _ => rfl)
          (fun ⟨v, hv⟩ => absurd (hd ▸ hv) (by simp))]
        simp
      · rw [key k0 rest hk .divByZero (fun hn => absurd (hd ▸ hn) (by simp))
          (fun _ => rfl)]
        simp
  · intro hwf hne
    rcases hk : a.sortedKeys with - | ⟨k0, rest⟩
    · exact absurd hk hne
    · refine key k0 rest hk .divByZero ?_ (fun _ => rfl)
      intro hd
      have hmap := hwf.2
      rcases hkv : a.keyVals with - | ⟨kv0, kvrest⟩
      · rw [hkv, hk, List.map_nil] at hmap
        exact List.noConfusion hmap
      · have hfst : kv0.1 = k0 := by
          rw [hkv, hk, List.map_cons] at hmap
          injection hmap with h3 h4
        rw [hkv] at hd
        unfold dictGet at hd
        rw [if_pos hfst] at hd
        cases hd

/-- Witness for C8 at a concrete accumulator with one positive, no negatives
and a non-empty grid: `value()` errors (with the division by zero), and never
returns a number. -/
theorem C8_witness :
    ((AUCMetrics.mk [((3:ℚ)/2, (0, 1))] 1 0 [3/2] 0).posCnt = 0 ∨
      (AUCMetrics.mk [((3:ℚ)/2, (0, 1))] 1 0 [3/2] 0).negCnt = 0) ∧
    (∀ q : ℚ, (AUCMetrics.mk [((3:ℚ)/2, (0, 1))] 1 0 [3/2] 0).value ≠ .ok q) ∧
    ((AUCMetrics.mk [((3:ℚ)/2, (0, 1))] 1 0 [3/2] 0).wf →
      (AUCMetrics.mk [((3:ℚ)/2, (0, 1))] 1 0 [3/2] 0).sortedKeys ≠ [] →
      (AUCMetrics.mk [((3:ℚ)/2, (0, 1))] 1 0 [3/2] 0).value = .error .divByZero) :=
  ⟨Or.inr rfl, C8_degenerate_value_never_returns _ (Or.inr rfl)⟩

/-- Claim C3 (a code bug): merging any accumulator whose grid is non-empty
with the empty accumulator crashes instead of acting as an identity:
`_get_fp_tp` falls through to `sorted_keys[-1]`, an `IndexError` on the empty
side's empty key list (`none` here).  Both orders crash; only `None` (an
absent operand) is a merge identity. -/
theorem C3_empty_merge_crashes :
    (rawDataToAuc 3 7 [(7, 1/2)]).add (some (rawDataToAuc 3 7 [])) = none ∧
    (rawDataToAuc 3 7 []).add (some (rawDataToAuc 3 7 [(7, 1/2)])) = none ∧
    (rawDataToAuc 3 7 []).add (some (rawDataToAuc 3 7 [])) =
      some (rawDataToAuc 3 7 []) := by
  refine ⟨?_, ?_, ?_⟩ <;>
    norm_num [rawDataToAuc, threshCands, sortedSet, insertSortedDedup, floorProb, ceilProb,
      AUCMetrics.add, mergeSortedNoDupes, mergeStep, getFpTp, dictGet,
      searchsortedRight, searchsortedLeft, insertIndex, bumpBelow, bumpVal,
      List.mapM, List.mapM.loop, List.takeWhile, List.cons_ne_nil]

/-- Claim C10: `macro_average` is a fixed constant per accumulator type —
`true` for every `ConfusionMatrixMetric` (hence for the Precision / Recall /
F1 views, which inherit it) and every `WeightedF1Metric`, and `false` for
every `AUCMetrics`. -/
theorem C10_macro_average_constants :
    ∀ (m : ConfusionMatrixMetric) (a : AUCMetrics) (w : WeightedF1Metric),
      m.macroAverage = true ∧ a.macroAverage = false ∧ w.macroAverage = true :=
  fun _ _ _ => ⟨rfl, rfl, rfl⟩

/-! ## Sorted-list toolkit -/

theorem sorted_getElem_le {K : List ℚ} (hK : K.Pairwise (· < ·))
    {i j : ℕ} (hi : i < K.length) (hj : j < K.length) (hij : i ≤ j) :
    K[i] ≤ K[j] := by
  rcases Nat.lt_or_ge i j with h | h
  · exact le_of_lt (List.pairwise_iff_getElem.mp hK i j hi hj h)
  · have : i = j := le_antisymm hij h
    subst this
    exact le_refl _

theorem sorted_nodup {K : List ℚ} (hK : K.Pairwise (· < ·)) : K.Nodup :=
  hK.imp ne_of_lt

theorem searchsortedLeft_eq_countP {K : List ℚ} (hK : K.Pairwise (· < ·)) (x : ℚ) :
    searchsortedLeft K x = K.countP (fun y => decide (y < x)) := by
  induction K with
  | nil => rfl
  | cons h t ih =>
    rw [List.pairwise_cons] at hK
    by_cases hx : h < x
    · rw [searchsortedLeft, List.takeWhile_cons, if_pos (by simpa using hx),
        List.length_cons, List.countP_cons, if_pos (by simpa using hx),
        ← searchsortedLeft, ih hK.2]
    · rw [searchsortedLeft, List.takeWhile_cons, if_neg (by simpa using hx),
        List.countP_cons, if_neg (by simpa using hx), List.length_nil,
        List.countP_eq_zero.mpr]
      intro y hy
      simp only [decide_eq_true_eq]
      exact fun hyx => hx (lt_trans (hK.1 y hy) hyx)

theorem searchsortedRight_eq_countP {K : List ℚ} (hK : K.Pairwise (· < ·)) (x : ℚ) :
    searchsortedRight K x = K.countP (fun y => decide (y ≤ x)) := by
  induction K with
  | nil => rfl
  | cons h t ih =>
    rw [List.pairwise_cons] at hK
    by_cases hx : h ≤ x
    · rw [searchsortedRight, List.takeWhile_cons, if_pos (by simpa using hx),
        List.length_cons, List.countP_cons, if_pos (by simpa using hx),
        ← searchsortedRight, ih hK.2]
    · rw [searchsortedRight, List.takeWhile_cons, if_neg (by simpa using hx),
        List.countP_cons, if_neg (by simpa using hx), List.length_nil,
        List.countP_eq_zero.mpr]
      intro y hy
      simp only [decide_eq_true_eq]
      exact fun hyx => hx (le_of_lt (lt_of_lt_of_le (hK.1 y hy) hyx))

/-- In a strictly ascending list, the number of elements below the `i`-th
element is exactly `i`. -/
theorem countP_lt_getElem {K : List ℚ} (hK : K.Pairwise (· < ·))
    {i : ℕ} (hi : i < K.length) :
    K.countP (fun y => decide (y < K[i])) = i := by
  induction K generalizing i with
  | nil => cases hi
  | cons h t ih =>
    rw [List.pairwise_cons] at hK
    match i with
    | 0 =>
      rw [List.countP_cons, if_neg (by simp), List.countP_eq_zero.mpr]
      intro y hy
      simp only [decide_eq_true_eq]
      simp only [List.getElem_cons_zero]
      exact not_lt_of_gt (hK.1 y hy)
    | j + 1 =>
      have hj : j < t.length := by
        simpa using Nat.lt_of_succ_lt_succ hi
      have hmem : t[j] ∈ t := List.getElem_mem hj
      rw [List.countP_cons]
      simp only [List.getElem_cons_succ]
      rw [if_pos (by simpa using hK.1 _ hmem), ih hK.2 hj]

/-- An element of a strictly ascending list sits at the index counting the
elements below it. -/
theorem getElem_countP_lt {K : List ℚ} (hK : K.Pairwise (· < ·)) {t : ℚ}
    (ht : t ∈ K) :
    ∃ h : K.countP (fun y => decide (y < t)) < K.length,
      K[K.countP (fun y => decide (y < t))] = t := by
  obtain ⟨i, hi, rfl⟩ := List.mem_iff_getElem.mp ht
  rw [countP_lt_getElem hK hi]
  exact ⟨hi, rfl⟩

/-- Count decomposition: weak bound count = strict bound count plus the
multiplicity of the bound itself. -/
theorem countP_le_eq_countP_lt_add_count (K : List ℚ) (t : ℚ) :
    K.countP (fun y => decide (y ≤ t)) =
      K.countP (fun y => decide (y < t)) + K.count t := by
  induction K with
  | nil => rfl
  | cons h rest ih =>
    rw [List.countP_cons, List.countP_cons, List.count_cons, ih]
    by_cases he : h = t
    · subst he
      rw [if_pos (by simp), if_neg (by simp), if_pos (by simp)]
      omega
    · by_cases hlt : h < t
      · rw [if_pos (by simp [le_of_lt hlt]), if_pos (by simpa using hlt),
          if_neg (by simpa using he)]
        omega
      · have h1 : ¬(decide (h ≤ t) = true) := by
          simp only [decide_eq_true_eq]
          exact fun hle => hlt (lt_of_le_of_ne hle he)
        rw [if_neg h1, if_neg (by simpa using hlt), if_neg (by simpa using he)]
        omega

theorem count_mem_sorted {K : List ℚ} (hK : K.Pairwise (· < ·)) (t : ℚ) :
    K.count t = if t ∈ K then 1 else 0 := by
  by_cases h : t ∈ K
  · rw [if_pos h]
    exact List.count_eq_one_of_mem (sorted_nodup hK) h
  · rw [if_neg h]
    exact List.count_eq_zero_of_not_mem h

/-- The element at the insertion index `countP (· < t)` is the least grid
element at or above `t` (when the index is in bounds). -/
theorem leastGE {K : List ℚ} (hK : K.Pairwise (· < ·)) (t : ℚ)
    (hlt : K.countP (fun y => decide (y < t)) < K.length) :
    t ≤ K[K.countP (fun y => decide (y < t))] ∧
      ∀ k ∈ K, t ≤ k → K[K.countP (fun y => decide (y < t))] ≤ k := by
  set j := K.countP (fun y => decide (y < t)) with hj
  constructor
  · by_contra hcon
    push_neg at hcon
    have hmem : K[j] ∈ K := List.getElem_mem hlt
    have h1 : K.countP (fun y => decide (y ≤ K[j])) ≤ K.countP (fun y => decide (y < t)) := by
      apply List.countP_mono_left
      intro x hx
      simp only [decide_eq_true_eq]
      exact fun hle => lt_of_le_of_lt hle hcon
    rw [countP_le_eq_countP_lt_add_count, count_mem_sorted hK, if_pos hmem,
      countP_lt_getElem hK hlt] at h1
    omega
  · intro k hk htk
    by_contra hcon
    push_neg at hcon
    obtain ⟨i, hi, rfl⟩ := List.mem_iff_getElem.mp hk
    have hpos : K.countP (fun y => decide (y < K[i])) = i := countP_lt_getElem hK hi
    have hge : j ≤ i := by
      rw [← hpos, hj]
      apply List.countP_mono_left
      intro x hx
      simp only [decide_eq_true_eq]
      exact fun hxlt => lt_of_lt_of_le hxlt htk
    exact absurd (sorted_getElem_le hK hlt hi hge) (not_le_of_gt hcon)

/-- Every element of a strictly ascending non-empty list is at most the last
element. -/
theorem sorted_le_last {K : List ℚ} (hK : K.Pairwise (· < ·))
    (hne : K ≠ []) {x : ℚ} (hx : x ∈ K) :
    x ≤ K.getD (K.length - 1) 0 := by
  obtain ⟨i, hi, rfl⟩ := List.mem_iff_getElem.mp hx
  have hlen : K.length - 1 < K.length := by
    cases K with
    | nil => exact absurd rfl hne
    | cons h t => simp
  rw [List.getD_eq_getElem K 0 hlen]
  exact sorted_getElem_le hK hi hlen (by omega)

/-! ## sortedSet and merge specifications -/

theorem insertSortedDedup_spec (x : ℚ) (l : List ℚ) (hl : l.Pairwise (· < ·)) :
    (insertSortedDedup x l).Pairwise (· < ·) ∧
      ∀ z, z ∈ insertSortedDedup x l ↔ z = x ∨ z ∈ l := by
  induction l with
  | nil => simp [insertSortedDedup]
  | cons y ys ih =>
    rw [List.pairwise_cons] at hl
    obtain ⟨hy, hys⟩ := hl
    obtain ⟨ih1, ih2⟩ := ih hys
    by_cases h1 : x < y
    · rw [insertSortedDedup, if_pos h1]
      constructor
      · rw [List.pairwise_cons]
        refine ⟨?_, List.pairwise_cons.mpr ⟨hy, hys⟩⟩
        intro z hz
        rcases List.mem_cons.mp hz with rfl | hz
        · exact h1
        · exact lt_trans h1 (hy z hz)
      · intro z
        simp only [List.mem_cons]
    · by_cases h2 : x = y
      · rw [insertSortedDedup, if_neg h1, if_pos h2]
        subst h2
        refine ⟨List.pairwise_cons.mpr ⟨hy, hys⟩, ?_⟩
        intro z
        simp only [List.mem_cons]
        tauto
      · rw [insertSortedDedup, if_neg h1, if_neg h2]
        have hyx : y < x := lt_of_le_of_ne (le_of_not_lt h1) (Ne.symm h2)
        constructor
        · rw [List.pairwise_cons]
          refine ⟨?_, ih1⟩
          intro z hz
          rcases (ih2 z).mp hz with rfl | hz
          · exact hyx
          · exact hy z hz
        · intro z
          rw [List.mem_cons, List.mem_cons, ih2 z]
          tauto

theorem sortedSet_spec (l : List ℚ) :
    (sortedSet l).Pairwise (· < ·) ∧ ∀ z, z ∈ sortedSet l ↔ z ∈ l := by
  induction l with
  | nil => simp [sortedSet]
  | cons x xs ih =>
    obtain ⟨ih1, ih2⟩ := ih
    have hspec := insertSortedDedup_spec x (sortedSet xs) ih1
    have hfold : sortedSet (x :: xs) = insertSortedDedup x (sortedSet xs) := rfl
    rw [hfold]
    refine ⟨hspec.1, fun z => ?_⟩
    rw [hspec.2 z, List.mem_cons, ih2 z]

/-- Strictly ascending lists with the same members are equal. -/
theorem sorted_ext {l1 l2 : List ℚ} (h1 : l1.Pairwise (· < ·))
    (h2 : l2.Pairwise (· < ·)) (hm : ∀ z, z ∈ l1 ↔ z ∈ l2) : l1 = l2 := by
  induction l1 generalizing l2 with
  | nil =>
    cases l2 with
    | nil => rfl
    | cons b t2 => exact absurd ((hm b).mpr (List.mem_cons_self b t2)) (by simp)
  | cons a t1 ih =>
    cases l2 with
    | nil => exact absurd ((hm a).mp (List.mem_cons_self a t1)) (by simp)
    | cons b t2 =>
      rw [List.pairwise_cons] at h1 h2
      have hab : a = b := by
        rcases List.mem_cons.mp ((hm a).mp (List.mem_cons_self a t1)) with h | h
        · exact h
        · rcases List.mem_cons.mp ((hm b).mpr (List.mem_cons_self b t2)) with h' | h'
          · exact h'.symm
          · exact absurd (lt_trans (h1.1 b h') (h2.1 a h)) (lt_irrefl a)
      subst hab
      have hmt : ∀ z, z ∈ t1 ↔ z ∈ t2 := by
        intro z
        constructor
        · intro hz
          rcases List.mem_cons.mp ((hm z).mp (List.mem_cons_of_mem a hz)) with rfl | h
          · exact absurd (h1.1 z hz) (lt_irrefl z)
          · exact h
        · intro hz
          rcases List.mem_cons.mp ((hm z).mpr (List.mem_cons_of_mem a hz)) with rfl | h
          · exact absurd (h2.1 z hz) (lt_irrefl z)
          · exact h
      rw [ih h1.2 h2.2 hmt]

theorem mergeSortedNoDupes_nil_right (l : List ℚ) :
    AUCMetrics.mergeSortedNoDupes l [] = l := by
  cases l <;> rfl

theorem mem_mergeSortedNoDupes (l1 l2 : List ℚ) (z : ℚ) :
    z ∈ AUCMetrics.mergeSortedNoDupes l1 l2 ↔ z ∈ l1 ∨ z ∈ l2 := by
  induction l1 generalizing l2 with
  | nil => simp [AUCMetrics.mergeSortedNoDupes]
  | cons x xs ih =>
    induction l2 with
    | nil => simp [mergeSortedNoDupes_nil_right]
    | cons y ys ih2 =>
      have hstep : AUCMetrics.mergeSortedNoDupes (x :: xs) (y :: ys) =
          if x > y then y :: AUCMetrics.mergeSortedNoDupes (x :: xs) ys
          else if x = y then x :: AUCMetrics.mergeSortedNoDupes xs ys
          else x :: AUCMetrics.mergeSortedNoDupes xs (y :: ys) := rfl
      rw [hstep]
      by_cases hgt : x > y
      · rw [if_pos hgt, List.mem_cons, ih2]
        simp only [List.mem_cons]
        tauto
      · by_cases heq : x = y
        · rw [if_neg hgt, if_pos heq, List.mem_cons, ih ys]
          subst heq
          simp only [List.mem_cons]
          tauto
        · rw [if_neg hgt, if_neg heq, List.mem_cons, ih (y :: ys)]
          simp only [List.mem_cons]
          tauto

theorem mergeSortedNoDupes_pairwise (l1 l2 : List ℚ)
    (h1 : l1.Pairwise (· < ·)) (h2 : l2.Pairwise (· < ·)) :
    (AUCMetrics.mergeSortedNoDupes l1 l2).Pairwise (· < ·) := by
  induction l1 generalizing l2 h2 with
  | nil => simpa [AUCMetrics.mergeSortedNoDupes] using h2
  | cons x xs ih =>
    induction l2 with
    | nil => simpa [mergeSortedNoDupes_nil_right] using h1
    | cons y ys ih2 =>
      have hstep : AUCMetrics.mergeSortedNoDupes (x :: xs) (y :: ys) =
          if x > y then y :: AUCMetrics.mergeSortedNoDupes (x :: xs) ys
          else if x = y then x :: AUCMetrics.mergeSortedNoDupes xs ys
          else x :: AUCMetrics.mergeSortedNoDupes xs (y :: ys) := rfl
      rw [hstep]
      rw [List.pairwise_cons] at h1 h2
      by_cases hgt : x > y
      · rw [if_pos hgt, List.pairwise_cons]
        constructor
        · intro z hz
          rcases (mem_mergeSortedNoDupes _ _ z).mp hz with hz | hz
          · rcases List.mem_cons.mp hz with rfl | hz
            · exact hgt
            · exact lt_trans hgt (h1.1 z hz)
          · exact h2.1 z hz
        · exact ih2 h2.2
      · by_cases heq : x = y
        · rw [if_neg hgt, if_pos heq, List.pairwise_cons]
          constructor
          · intro z hz
            rcases (mem_mergeSortedNoDupes _ _ z).mp hz with hz | hz
            · exact h1.1 z hz
            · rw [heq]
              exact h2.1 z hz
          · exact ih ys h1.2 h2.2
        · have hxy : x < y := lt_of_le_of_ne (le_of_not_lt hgt) heq
          rw [if_neg hgt, if_neg heq, List.pairwise_cons]
          constructor
          · intro z hz
            rcases (mem_mergeSortedNoDupes _ _ z).mp hz with hz | hz
            · exact h1.1 z hz
            · rcases List.mem_cons.mp hz with rfl | hz
              · exact hxy
              · exact lt_trans hxy (h2.1 z hz)
          · exact ih (y :: ys) h1.2 (List.pairwise_cons.mpr h2)

theorem lt_countP_le_iff {K : List ℚ} (hK : K.Pairwise (· < ·)) {i : ℕ}
    (hi : i < K.length) (x : ℚ) :
    i < K.countP (fun y => decide (y ≤ x)) ↔ K[i] ≤ x := by
  constructor
  · intro h
    by_contra hcon
    push_neg at hcon
    have : K.countP (fun y => decide (y ≤ x)) ≤ K.countP (fun y => decide (y < K[i])) := by
      apply List.countP_mono_left
      intro z hz
      simp only [decide_eq_true_eq]
      exact fun hle => lt_of_le_of_lt hle hcon
    rw [countP_lt_getElem hK hi] at this
    omega
  · intro h
    have h1 : K.countP (fun y => decide (y ≤ K[i])) ≤ K.countP (fun y => decide (y ≤ x)) := by
      apply List.countP_mono_left
      intro z hz
      simp only [decide_eq_true_eq]
      exact fun hle => le_trans hle h
    rw [countP_le_eq_countP_lt_add_count, count_mem_sorted hK,
      if_pos (List.getElem_mem hi), countP_lt_getElem hK hi] at h1
    omega

theorem insertIndex_eq_countP {K : List ℚ} (hK : K.Pairwise (· < ·)) (p : ℚ) :
    insertIndex K p = K.countP (fun y => decide (y ≤ p)) := by
  unfold insertIndex
  rw [searchsortedLeft_eq_countP hK]
  by_cases hmem : p ∈ K
  · obtain ⟨hlt, hget⟩ := getElem_countP_lt hK hmem
    rw [if_pos ⟨hlt, by rw [List.getD_eq_getElem K 0 hlt]; exact hget⟩,
      countP_le_eq_countP_lt_add_count, count_mem_sorted hK, if_pos hmem]
  · rw [if_neg, countP_le_eq_countP_lt_add_count, count_mem_sorted hK,
      if_neg hmem, add_zero]
    rintro ⟨hl, he⟩
    rw [List.getD_eq_getElem K 0 hl] at he
    exact hmem (he ▸ List.getElem_mem hl)

/-! ## dict and bump lemmas -/

theorem dictGet_eq_none_iff (t : ℚ) (l : List (ℚ × (ℕ × ℕ))) :
    dictGet t l = none ↔ t ∉ l.map Prod.fst := by
  induction l with
  | nil => simp [dictGet]
  | cons kv rest ih =>
    rw [dictGet]
    by_cases h : kv.1 = t
    · rw [if_pos h]
      simp [h]
    · rw [if_neg h, ih]
      simp only [List.map_cons, List.mem_cons]
      constructor
      · rintro hni (h1 | h1)
        · exact h h1.symm
        · exact hni h1
      · intro hni h1
        exact hni (Or.inr h1)

theorem dictGet_getElem {l : List (ℚ × (ℕ × ℕ))}
    (hnd : (l.map Prod.fst).Nodup) {i : ℕ} (hi : i < l.length) :
    dictGet l[i].1 l = some l[i].2 := by
  induction l generalizing i with
  | nil => cases hi
  | cons kv rest ih =>
    rw [List.map_cons, List.nodup_cons] at hnd
    match i with
    | 0 => rw [List.getElem_cons_zero, dictGet, if_pos rfl]
    | j + 1 =>
      have hj : j < rest.length := by simpa using Nat.lt_of_succ_lt_succ hi
      rw [List.getElem_cons_succ, dictGet, if_neg, ih hnd.2 hj]
      intro he
      exact hnd.1 (he ▸ List.mem_map_of_mem Prod.fst (List.getElem_mem hj))

theorem bumpBelow_length (b : Bool) (n : ℕ) (vs : List (ℕ × ℕ)) :
    (bumpBelow b n vs).length = vs.length := by
  induction vs generalizing n with
  | nil => cases n <;> rfl
  | cons v vs ih =>
    cases n with
    | zero => rfl
    | succ m => simp [bumpBelow, ih]

theorem bumpBelow_getD (b : Bool) (n : ℕ) (vs : List (ℕ × ℕ)) (i : ℕ)
    (hi : i < vs.length) :
    (bumpBelow b n vs).getD i (0, 0) =
      if i < n then bumpVal b (vs.getD i (0, 0)) else vs.getD i (0, 0) := by
  induction vs generalizing n i with
  | nil => cases hi
  | cons v vs ih =>
    cases n with
    | zero => simp [bumpBelow]
    | succ m =>
      match i with
      | 0 => simp [bumpBelow]
      | j + 1 =>
        have hj : j < vs.length := by simpa using Nat.lt_of_succ_lt_succ hi
        rw [show bumpBelow b (m + 1) (v :: vs) = bumpVal b v :: bumpBelow b m vs from rfl]
        simp only [List.getD_cons_succ]
        rw [ih m j hj]
        by_cases hjm : j < m
        · rw [if_pos hjm, if_pos (by omega)]
        · rw [if_neg hjm, if_neg (by omega)]

theorem cntBucket_nil (c : ℕ) (t : ℚ) : cntBucket c t [] = (0, 0) := rfl

theorem addPair_assoc (u v w : ℕ × ℕ) :
    addPair (addPair u v) w = addPair u (addPair v w) := by
  simp [addPair, Prod.ext_iff]
  omega

theorem addPair_comm (u v : ℕ × ℕ) : addPair u v = addPair v u := by
  simp [addPair, Prod.ext_iff]
  omega

theorem addPair_zero (u : ℕ × ℕ) : addPair u (0, 0) = u := by
  simp [addPair]

theorem bumpVal_eq_addPair (b : Bool) (v : ℕ × ℕ) :
    bumpVal b v = addPair v (if b then (0, 1) else (1, 0)) := by
  cases b <;> simp [bumpVal, addPair]

theorem cntBucket_cons (c : ℕ) (t : ℚ) (s : ℕ × ℚ) (ss : List (ℕ × ℚ)) :
    cntBucket c t (s :: ss) = addPair (cntBucket c t ss)
      (if t ≤ s.2 then (if s.1 = c then (0, 1) else (1, 0)) else (0, 0)) := by
  unfold cntBucket addPair
  by_cases hc : s.1 = c <;> by_cases hle : t ≤ s.2 <;>
    simp [List.countP_cons, hc, hle, Prod.ext_iff]

theorem foldl_bump_getD (c : ℕ) (keys : List ℚ) (hK : keys.Pairwise (· < ·))
    (S : List (ℕ × ℚ)) :
    ∀ (vals0 : List (ℕ × ℕ)), vals0.length = keys.length →
    ∀ i, i < keys.length →
    (S.foldl (fun vals s =>
        bumpBelow (decide (s.1 = c)) (insertIndex keys s.2) vals) vals0).getD i (0, 0)
      = addPair (vals0.getD i (0, 0)) (cntBucket c (keys.getD i 0) S) := by
  induction S with
  | nil =>
    intro vals0 hlen i hi
    simp [cntBucket, addPair]
  | cons s ss ih =>
    intro vals0 hlen i hi
    rw [List.foldl_cons,
      ih _ (by rw [bumpBelow_length]; exact hlen) i hi,
      bumpBelow_getD _ _ _ i (by rw [hlen]; exact hi),
      insertIndex_eq_countP hK]
    have ht : keys.getD i 0 = keys[i] := List.getD_eq_getElem keys 0 hi
    rw [ht, cntBucket_cons]
    by_cases hle : keys[i] ≤ s.2
    · rw [if_pos ((lt_countP_le_iff hK hi s.2).mpr hle), if_pos hle,
        bumpVal_eq_addPair, addPair_assoc,
        addPair_comm (if decide (s.1 = c) then ((0:ℕ), (1:ℕ)) else (1, 0)) _,
        ← addPair_assoc]
      by_cases hc : s.1 = c
      · simp [hc, addPair_assoc]
      · simp [hc, addPair_assoc]
    · rw [if_neg (fun hcon => hle ((lt_countP_le_iff hK hi s.2).mp hcon)),
        if_neg hle, addPair_zero]

/-! ## AUCMetrics characterizations -/

theorem addPair_zero_left (u : ℕ × ℕ) : addPair (0, 0) u = u := by
  simp [addPair]

theorem foldl_bump_length (c : ℕ) (keys : List ℚ) (S : List (ℕ × ℚ))
    (vals0 : List (ℕ × ℕ)) :
    (S.foldl (fun vals s =>
      bumpBelow (decide (s.1 = c)) (insertIndex keys s.2) vals) vals0).length
      = vals0.length := by
  induction S generalizing vals0 with
  | nil => rfl
  | cons s ss ih => rw [List.foldl_cons, ih, bumpBelow_length]

theorem raw_fields (d c : ℕ) (S : List (ℕ × ℚ)) (h : S ≠ []) :
    (rawDataToAuc d c S).sortedKeys = sortedSet (threshCands d S) ∧
    (rawDataToAuc d c S).className = c ∧
    (rawDataToAuc d c S).posCnt = S.countP (fun s => decide (c = s.1)) ∧
    (rawDataToAuc d c S).negCnt = S.length - S.countP (fun s => decide (c = s.1)) ∧
    (rawDataToAuc d c S).keyVals = (sortedSet (threshCands d S)).zip
      (S.foldl (fun vals s => bumpBelow (decide (s.1 = c))
        (insertIndex (sortedSet (threshCands d S)) s.2) vals)
        ((sortedSet (threshCands d S)).map fun _ => (0, 0))) := by
  refine ⟨?_, ?_, ?_, ?_, ?_⟩ <;> simp only [rawDataToAuc, if_neg h]

theorem raw_wf (d c : ℕ) (S : List (ℕ × ℚ)) (h : S ≠ []) :
    (rawDataToAuc d c S).wf := by
  obtain ⟨hk, -, -, -, hkv⟩ := raw_fields d c S h
  constructor
  · rw [hk]
    exact (sortedSet_spec (threshCands d S)).1
  · rw [hk, hkv]
    apply List.map_fst_zip
    rw [foldl_bump_length, List.length_map]

theorem raw_length_keyVals (d c : ℕ) (S : List (ℕ × ℚ)) (h : S ≠ []) :
    (rawDataToAuc d c S).keyVals.length = (rawDataToAuc d c S).sortedKeys.length := by
  have := (raw_wf d c S h).2
  rw [← this, List.length_map]

theorem raw_bucketAt (d c : ℕ) (S : List (ℕ × ℚ)) (h : S ≠ []) (i : ℕ)
    (hi : i < (rawDataToAuc d c S).sortedKeys.length) :
    bucketAt (rawDataToAuc d c S) i
      = cntBucket c ((rawDataToAuc d c S).sortedKeys.getD i 0) S := by
  obtain ⟨hk, -, -, -, hkv⟩ := raw_fields d c S h
  have hKsorted : (sortedSet (threshCands d S)).Pairwise (· < ·) :=
    (sortedSet_spec (threshCands d S)).1
  have hilen : i < (sortedSet (threshCands d S)).length := by rw [← hk]; exact hi
  have hvlen : (S.foldl (fun vals s => bumpBelow (decide (s.1 = c))
      (insertIndex (sortedSet (threshCands d S)) s.2) vals)
      ((sortedSet (threshCands d S)).map fun _ => (0, 0))).length
      = (sortedSet (threshCands d S)).length := by
    rw [foldl_bump_length, List.length_map]
  unfold bucketAt
  rw [hkv, hk]
  have hzlen : i < ((sortedSet (threshCands d S)).zip
      (S.foldl (fun vals s => bumpBelow (decide (s.1 = c))
        (insertIndex (sortedSet (threshCands d S)) s.2) vals)
        ((sortedSet (threshCands d S)).map fun _ => (0, 0)))).length := by
    rw [List.length_zip, hvlen]
    omega
  rw [List.getD_eq_getElem _ _ (by rw [List.length_map]; exact hzlen),
    List.getElem_map, List.getElem_zip]
  have hfold := foldl_bump_getD c (sortedSet (threshCands d S)) hKsorted S
    ((sortedSet (threshCands d S)).map fun _ => (0, 0))
    (by rw [List.length_map]) i hilen
  rw [List.getD_eq_getElem _ _ (by rw [hvlen]; exact hilen)] at hfold
  rw [hfold]
  rw [List.getD_eq_getElem _ _ (by rw [List.length_map]; exact hilen),
    List.getElem_map, addPair_zero_left]

theorem keyVals_length_eq {a : AUCMetrics} (hwf : a.wf) :
    a.keyVals.length = a.sortedKeys.length := by
  rw [← hwf.2, List.length_map]

theorem keyVals_fst {a : AUCMetrics} (hwf : a.wf) {i : ℕ}
    (hi : i < a.keyVals.length) :
    a.keyVals[i].1 = a.sortedKeys.getD i 0 := by
  have hm : i < (a.keyVals.map Prod.fst).length := by
    rw [List.length_map]
    exact hi
  rw [← hwf.2, List.getD_eq_getElem _ _ hm, List.getElem_map]

theorem keyVals_snd {a : AUCMetrics} {i : ℕ} (hi : i < a.keyVals.length) :
    a.keyVals[i].2 = bucketAt a i := by
  unfold bucketAt
  rw [List.getD_eq_getElem _ _ (by rw [List.length_map]; exact hi), List.getElem_map]

/-- `_get_fp_tp` on a well-formed accumulator with non-empty grid always
succeeds, returning the bucket at the clamped strict-lower-bound index. -/
theorem getFpTp_eq_bucketAt {a : AUCMetrics} (hwf : a.wf)
    (hne : a.sortedKeys ≠ []) (t : ℚ) :
    a.getFpTp t = some (bucketAt a (getIdx a t)) := by
  have hKsorted : a.sortedKeys.Pairwise (· < ·) := hwf.1
  have hnd : (a.keyVals.map Prod.fst).Nodup := by
    rw [hwf.2]
    exact sorted_nodup hKsorted
  have hlenpos : 0 < a.sortedKeys.length := List.length_pos.mpr hne
  by_cases hmem : t ∈ a.sortedKeys
  · obtain ⟨hlt, hget⟩ := getElem_countP_lt hKsorted hmem
    have hkvlt : a.sortedKeys.countP (fun y => decide (y < t)) < a.keyVals.length := by
      rw [keyVals_length_eq hwf]
      exact hlt
    have hfst : a.keyVals[a.sortedKeys.countP (fun y => decide (y < t))].1 = t := by
      rw [keyVals_fst hwf hkvlt, List.getD_eq_getElem _ _ hlt, hget]
    have hdg := dictGet_getElem hnd hkvlt
    rw [hfst] at hdg
    have hidx : getIdx a t = a.sortedKeys.countP (fun y => decide (y < t)) := by
      unfold getIdx
      omega
    unfold AUCMetrics.getFpTp
    simp only [hdg]
    rw [keyVals_snd hkvlt, hidx]
  · have hdg : dictGet t a.keyVals = none := by
      rw [dictGet_eq_none_iff, hwf.2]
      exact hmem
    unfold AUCMetrics.getFpTp
    simp only [hdg]
    rw [if_neg (by omega)]
    have hright : searchsortedRight a.sortedKeys t
        = a.sortedKeys.countP (fun y => decide (y < t)) := by
      rw [searchsortedRight_eq_countP hKsorted, countP_le_eq_countP_lt_add_count,
        count_mem_sorted hKsorted, if_neg hmem, add_zero]
    rw [hright]
    have hj : (if a.sortedKeys.length ≤ a.sortedKeys.countP (fun y => decide (y < t))
        then a.sortedKeys.length - 1
        else a.sortedKeys.countP (fun y => decide (y < t))) = getIdx a t := by
      unfold getIdx
      have hle : a.sortedKeys.countP (fun y => decide (y < t)) ≤ a.sortedKeys.length :=
        List.countP_le_length _
      by_cases hcase : a.sortedKeys.length ≤ a.sortedKeys.countP (fun y => decide (y < t))
      · rw [if_pos hcase]
        omega
      · rw [if_neg hcase]
        omega
    rw [hj]
    have hjlt : getIdx a t < a.sortedKeys.length := by
      unfold getIdx
      omega
    have hjkv : getIdx a t < a.keyVals.length := by
      rw [keyVals_length_eq hwf]
      exact hjlt
    rw [show a.sortedKeys.getD (getIdx a t) 0 = a.keyVals[getIdx a t].1 from
      (keyVals_fst hwf hjkv).symm]
    rw [dictGet_getElem hnd hjkv, keyVals_snd hjkv]

theorem mapM_option_some {α β : Type} (f : α → Option β) (g : α → β)
    (l : List α) (h : ∀ x ∈ l, f x = some (g x)) :
    l.mapM f = some (l.map g) := by
  induction l with
  | nil => rfl
  | cons x xs ih =>
    rw [List.mapM_cons, h x (List.mem_cons_self x xs),
      ih (fun y hy => h y (List.mem_cons_of_mem x hy))]
    rfl

theorem mapM_option_none {α β : Type} (f : α → Option β) (l : List α) (x : α)
    (hx : x ∈ l) (h : f x = none) : l.mapM f = none := by
  induction l with
  | nil => cases hx
  | cons y ys ih =>
    rw [List.mapM_cons]
    rcases List.mem_cons.mp hx with rfl | hx2
    · rw [h]
      rfl
    · rcases hfy : f y with - | v
      · rfl
      · rw [ih hx2]
        rfl

theorem getFpTp_empty {a : AUCMetrics} (hwf : a.wf) (hna : a.sortedKeys = [])
    (t : ℚ) : a.getFpTp t = none := by
  have hkv : a.keyVals = [] := by
    have h2 := hwf.2
    rw [hna] at h2
    exact List.map_eq_nil_iff.mp h2
  unfold AUCMetrics.getFpTp
  simp [hkv, dictGet, hna]

/-- Characterization of a successful merge of two well-formed accumulators
with non-empty grids: the result's dict maps every threshold of the merged
grid to the sum of the two sides' `_get_fp_tp` buckets. -/
theorem add_char {a b : AUCMetrics} (hwa : a.wf) (hwb : b.wf)
    (hna : a.sortedKeys ≠ []) (hnb : b.sortedKeys ≠ [])
    (hcl : b.className = a.className) :
    a.add (some b) = some ⟨(mergeSortedNoDupes a.sortedKeys b.sortedKeys).map
        (fun t => (t, addPair (bucketAt a (getIdx a t)) (bucketAt b (getIdx b t)))),
      a.posCnt + b.posCnt, a.negCnt + b.negCnt,
      mergeSortedNoDupes a.sortedKeys b.sortedKeys, a.className⟩ := by
  simp only [AUCMetrics.add]
  rw [if_pos hcl]
  rw [mapM_option_some _
    (fun t => (t, addPair (bucketAt a (getIdx a t)) (bucketAt b (getIdx b t)))) _
    (fun t _ => by
      rw [show (do
          let sv ← a.getFpTp t
          let ov ← b.getFpTp t
          pure (t, (sv.1 + ov.1, sv.2 + ov.2)) : Option (ℚ × ℕ × ℕ))
        = (a.getFpTp t).bind (fun sv => (b.getFpTp t).bind
            (fun ov => some (t, (sv.1 + ov.1, sv.2 + ov.2)))) from rfl]
      rw [getFpTp_eq_bucketAt hwa hna, getFpTp_eq_bucketAt hwb hnb]
      rfl)]
  rfl

theorem add_fail_left {a b : AUCMetrics} (hwa : a.wf) (hna : a.sortedKeys = [])
    (hnb : b.sortedKeys ≠ []) (hcl : b.className = a.className) :
    a.add (some b) = none := by
  simp only [AUCMetrics.add]
  rw [if_pos hcl]
  have hm : mergeSortedNoDupes a.sortedKeys b.sortedKeys = b.sortedKeys := by
    rw [hna]
    rfl
  rw [hm]
  rcases hb : b.sortedKeys with - | ⟨k0, rest⟩
  · exact absurd hb hnb
  · have hf : (do
        let sv ← a.getFpTp k0
        let ov ← b.getFpTp k0
        pure (k0, (sv.1 + ov.1, sv.2 + ov.2)) : Option (ℚ × ℕ × ℕ)) = none := by
      rw [show (do
          let sv ← a.getFpTp k0
          let ov ← b.getFpTp k0
          pure (k0, (sv.1 + ov.1, sv.2 + ov.2)) : Option (ℚ × ℕ × ℕ))
          = (a.getFpTp k0).bind (fun sv => (b.getFpTp k0).bind
              (fun ov => some (k0, (sv.1 + ov.1, sv.2 + ov.2)))) from rfl,
        getFpTp_empty hwa hna]
      rfl
    rw [mapM_option_none _ _ k0 (List.mem_cons_self k0 rest) hf]
    rfl

theorem add_fail_right {a b : AUCMetrics} (hwb : b.wf) (hnb : b.sortedKeys = [])
    (hna : a.sortedKeys ≠ []) (hcl : b.className = a.className) :
    a.add (some b) = none := by
  simp only [AUCMetrics.add]
  rw [if_pos hcl]
  have hm : mergeSortedNoDupes a.sortedKeys b.sortedKeys = a.sortedKeys := by
    rw [hnb, mergeSortedNoDupes_nil_right]
  rw [hm]
  rcases ha : a.sortedKeys with - | ⟨k0, rest⟩
  · exact absurd ha hna
  · have hf : (do
        let sv ← a.getFpTp k0
        let ov ← b.getFpTp k0
        pure (k0, (sv.1 + ov.1, sv.2 + ov.2)) : Option (ℚ × ℕ × ℕ)) = none := by
      rw [show (do
          let sv ← a.getFpTp k0
          let ov ← b.getFpTp k0
          pure (k0, (sv.1 + ov.1, sv.2 + ov.2)) : Option (ℚ × ℕ × ℕ))
          = (a.getFpTp k0).bind (fun sv => (b.getFpTp k0).bind
              (fun ov => some (k0, (sv.1 + ov.1, sv.2 + ov.2)))) from rfl,
        getFpTp_empty hwb hnb]
      rcases a.getFpTp k0 with - | v <;> rfl
    rw [mapM_option_none _ _ k0 (List.mem_cons_self k0 rest) hf]
    rfl

theorem add_empty_empty {a b : AUCMetrics} (hna : a.sortedKeys = [])
    (hnb : b.sortedKeys = []) (hcl : b.className = a.className) :
    a.add (some b) = some ⟨[], a.posCnt + b.posCnt, a.negCnt + b.negCnt, [],
      a.className⟩ := by
  simp only [AUCMetrics.add]
  rw [if_pos hcl, hna, hnb]
  rfl

theorem add_some_class {a b c : AUCMetrics} (h : a.add (some b) = some c) :
    b.className = a.className := by
  by_contra hne
  simp only [AUCMetrics.add, if_neg hne] at h
  cases h

/-- The index `_get_fp_tp` reads is stable under refining the query from `t`
to the merged grid's own snapped threshold: looking up the sub-grid `Ka` at
the merged grid `U`'s clamped key for `t` lands on the same bucket index as
looking up `Ka` at `t` directly. -/
theorem countP_min_stable {U Ka : List ℚ} (hU : U.Pairwise (· < ·))
    (hKa : Ka.Pairwise (· < ·)) (hsub : ∀ k ∈ Ka, k ∈ U) (hUne : U ≠ [])
    (hKane : Ka ≠ []) (t : ℚ) :
    min (Ka.countP (fun y => decide
        (y < U.getD (min (U.countP (fun y => decide (y < t))) (U.length - 1)) 0)))
      (Ka.length - 1)
      = min (Ka.countP (fun y => decide (y < t))) (Ka.length - 1) := by
  have hUlen : 0 < U.length := List.length_pos.mpr hUne
  have hKlen : 0 < Ka.length := List.length_pos.mpr hKane
  by_cases hcase : U.countP (fun y => decide (y < t)) < U.length
  · have hmin : min (U.countP (fun y => decide (y < t))) (U.length - 1)
        = U.countP (fun y => decide (y < t)) := by omega
    rw [hmin, List.getD_eq_getElem U 0 hcase]
    obtain ⟨hget_ge, hget_min⟩ := leastGE hU t hcase
    have hc : Ka.countP (fun y => decide
        (y < U[U.countP (fun y => decide (y < t))]))
        = Ka.countP (fun y => decide (y < t)) := by
      apply List.countP_congr
      intro k hk
      simp only [decide_eq_true_eq]
      constructor
      · intro hklt
        by_contra hcon
        push_neg at hcon
        exact absurd hklt (not_lt_of_ge (hget_min k (hsub k hk) hcon))
      · intro hklt
        exact lt_of_lt_of_le hklt hget_ge
    rw [hc]
  · push_neg at hcase
    have hall : ∀ u ∈ U, u < t := by
      have hle : U.countP (fun y => decide (y < t)) ≤ U.length :=
        List.countP_le_length _
      have heq : U.countP (fun y => decide (y < t)) = U.length := le_antisymm hle hcase
      intro u hu
      have := List.countP_eq_length.mp (by rw [heq]) u hu
      simpa using this
    have hKaall : Ka.countP (fun y => decide (y < t)) = Ka.length := by
      apply List.countP_eq_length.mpr
      intro k hk
      simpa using hall k (hsub k hk)
    have hlast : U.getD (min (U.countP (fun y => decide (y < t))) (U.length - 1)) 0
        = U.getD (U.length - 1) 0 := by
      congr 1
      omega
    rw [hlast, hKaall]
    have hsplit := List.length_eq_countP_add_countP
      (fun y => decide (y < U.getD (U.length - 1) 0)) Ka
    have hnot : Ka.countP (fun y => decide ¬(decide (y < U.getD (U.length - 1) 0) = true)) ≤ 1 := by
      have hmono : Ka.countP (fun y => decide ¬(decide (y < U.getD (U.length - 1) 0) = true))
          ≤ Ka.countP (fun y => y == U.getD (U.length - 1) 0) := by
        apply List.countP_mono_left
        intro k hk hpred
        simp only [decide_eq_true_eq] at hpred
        have hle : k ≤ U.getD (U.length - 1) 0 := sorted_le_last hU hUne (hsub k hk)
        have : k = U.getD (U.length - 1) 0 := le_antisymm hle (le_of_not_lt hpred)
        simpa using this
      have hcount : Ka.countP (fun y => y == U.getD (U.length - 1) 0)
          = Ka.count (U.getD (U.length - 1) 0) := by
        rw [List.count_eq_countP]
      rw [hcount, count_mem_sorted hKa] at hmono
      by_cases hm : U.getD (U.length - 1) 0 ∈ Ka
      · rw [if_pos hm] at hmono
        exact hmono
      · rw [if_neg hm] at hmono
        omega
    have hcle : Ka.countP (fun y => decide (y < U.getD (U.length - 1) 0)) ≤ Ka.length :=
      List.countP_le_length _
    omega

theorem mergeSortedNoDupes_ne_left {l1 l2 : List ℚ} (h : l1 ≠ []) :
    mergeSortedNoDupes l1 l2 ≠ [] := by
  rcases l1 with - | ⟨x, xs⟩
  · exact absurd rfl h
  · intro hcon
    have : x ∈ mergeSortedNoDupes (x :: xs) l2 :=
      (mem_mergeSortedNoDupes _ _ x).mpr (Or.inl (List.mem_cons_self x xs))
    rw [hcon] at this
    cases this

theorem map_fst_pair {U : List ℚ} {F : ℚ → ℕ × ℕ} :
    (U.map (fun t => (t, F t))).map Prod.fst = U := by
  induction U with
  | nil => rfl
  | cons x xs ih => simp [ih]

theorem add_wf {a b c : AUCMetrics} (hwa : a.wf) (hwb : b.wf)
    (h : a.add (some b) = some c) : c.wf := by
  have hcl := add_some_class h
  by_cases hna : a.sortedKeys = []
  · by_cases hnb : b.sortedKeys = []
    · rw [add_empty_empty hna hnb hcl] at h
      cases h
      exact ⟨List.Pairwise.nil, rfl⟩
    · rw [add_fail_left hwa hna hnb hcl] at h
      cases h
  · by_cases hnb : b.sortedKeys = []
    · rw [add_fail_right hwb hnb hna hcl] at h
      cases h
    · rw [add_char hwa hwb hna hnb hcl] at h
      cases h
      constructor
      · exact mergeSortedNoDupes_pairwise _ _ hwa.1 hwb.1
      · exact map_fst_pair

theorem getIdx_mk (KV : List (ℚ × (ℕ × ℕ))) (U : List ℚ) (p n cl : ℕ) (t : ℚ) :
    getIdx ⟨KV, p, n, U, cl⟩ t
      = min (U.countP (fun y => decide (y < t))) (U.length - 1) := rfl

theorem bucketAt_mk_map (U : List ℚ) (F : ℚ → ℕ × ℕ) (p n cl : ℕ) (j : ℕ)
    (hj : j < U.length) :
    bucketAt ⟨U.map (fun t => (t, F t)), p, n, U, cl⟩ j = F U[j] := by
  unfold bucketAt
  show ((U.map (fun t => (t, F t))).map Prod.snd).getD j (0, 0) = F U[j]
  rw [List.map_map]
  have hlen : j < (U.map (Prod.snd ∘ fun t => (t, F t))).length := by
    rw [List.length_map]
    exact hj
  rw [List.getD_eq_getElem _ _ hlen, List.getElem_map]
  rfl

/-- A successful merge of two non-empty well-formed accumulators answers every
`_get_fp_tp` query with the sum of the operands' answers. -/
theorem add_getFpTp {a b ab : AUCMetrics} (hwa : a.wf) (hwb : b.wf)
    (hna : a.sortedKeys ≠ []) (hnb : b.sortedKeys ≠ [])
    (hab : a.add (some b) = some ab) (t : ℚ) :
    ab.getFpTp t = some (addPair (bucketAt a (getIdx a t)) (bucketAt b (getIdx b t))) := by
  have hcl := add_some_class hab
  rw [add_char hwa hwb hna hnb hcl] at hab
  cases hab
  set U := mergeSortedNoDupes a.sortedKeys b.sortedKeys with hUdef
  have hUsorted : U.Pairwise (· < ·) := mergeSortedNoDupes_pairwise _ _ hwa.1 hwb.1
  have hUne : U ≠ [] := mergeSortedNoDupes_ne_left hna
  have hwab : (AUCMetrics.mk (U.map
      (fun t => (t, addPair (bucketAt a (getIdx a t)) (bucketAt b (getIdx b t)))))
      (a.posCnt + b.posCnt) (a.negCnt + b.negCnt) U a.className).wf := by
    constructor
    · exact hUsorted
    · exact map_fst_pair
  rw [getFpTp_eq_bucketAt hwab hUne t]
  congr 1
  have hUlen : 0 < U.length := List.length_pos.mpr hUne
  rw [getIdx_mk]
  set j := min (U.countP (fun y => decide (y < t))) (U.length - 1) with hjdef
  have hjlt : j < U.length := by
    have := List.countP_le_length (l := U) (p := fun y => decide (y < t))
    omega
  rw [bucketAt_mk_map U
    (fun t => addPair (bucketAt a (getIdx a t)) (bucketAt b (getIdx b t)))
    (a.posCnt + b.posCnt) (a.negCnt + b.negCnt) a.className j hjlt]
  show addPair (bucketAt a (getIdx a U[j])) (bucketAt b (getIdx b U[j]))
      = addPair (bucketAt a (getIdx a t)) (bucketAt b (getIdx b t))
  have hsta : getIdx a U[j] = getIdx a t := by
    have hst := countP_min_stable hUsorted hwa.1
      (fun k hk => (mem_mergeSortedNoDupes _ _ k).mpr (Or.inl hk)) hUne hna t
    unfold getIdx
    rw [← List.getD_eq_getElem U 0 hjlt]
    exact hst
  have hstb : getIdx b U[j] = getIdx b t := by
    have hst := countP_min_stable hUsorted hwb.1
      (fun k hk => (mem_mergeSortedNoDupes _ _ k).mpr (Or.inr hk)) hUne hnb t
    unfold getIdx
    rw [← List.getD_eq_getElem U 0 hjlt]
    exact hst
  rw [hsta, hstb]

theorem dictGet_map (U : List ℚ) (F : ℚ → ℕ × ℕ) (t : ℚ) (ht : t ∈ U) :
    dictGet t (U.map (fun x => (x, F x))) = some (F t) := by
  induction U with
  | nil => cases ht
  | cons u us ih =>
    rw [List.map_cons, dictGet]
    by_cases h : u = t
    · rw [if_pos h, h]
    · rcases List.mem_cons.mp ht with rfl | ht2
      · exact absurd rfl h
      · rw [if_neg h, ih ht2]

theorem dict_ext {l1 l2 : List (ℚ × (ℕ × ℕ))}
    (hf : l1.map Prod.fst = l2.map Prod.fst) (hnd : (l1.map Prod.fst).Nodup)
    (hv : ∀ t ∈ l1.map Prod.fst, dictGet t l1 = dictGet t l2) : l1 = l2 := by
  induction l1 generalizing l2 with
  | nil =>
    rw [List.map_nil] at hf
    exact (List.map_eq_nil_iff.mp hf.symm).symm
  | cons kv1 r1 ih =>
    rcases l2 with - | ⟨kv2, r2⟩
    · rw [List.map_nil] at hf
      exact absurd hf (by simp)
    · rw [List.map_cons, List.map_cons] at hf
      injection hf with hfst hrest
      rw [List.map_cons, List.nodup_cons] at hnd
      have hv0 := hv kv1.1 (by rw [List.map_cons]; exact List.mem_cons_self _ _)
      rw [dictGet, if_pos rfl, dictGet, if_pos hfst.symm] at hv0
      have hkv : kv1 = kv2 := by
        have hsnd : kv1.2 = kv2.2 := Option.some.inj hv0
        exact Prod.ext hfst hsnd
      rw [hkv, ih hrest hnd.2]
      intro t ht
      have htne1 : kv1.1 ≠ t := fun he => hnd.1 (he ▸ ht)
      have hvt := hv t (by rw [List.map_cons]; exact List.mem_cons_of_mem _ ht)
      rw [dictGet, if_neg htne1, dictGet, if_neg (hfst ▸ htne1)] at hvt
      exact hvt

/-- Well-formed accumulators with the same grid members, the same buckets at
every grid key, and the same counts and class coincide. -/
theorem auc_ext {m1 m2 : AUCMetrics} (h1 : m1.wf) (h2 : m2.wf)
    (hk : ∀ z, z ∈ m1.sortedKeys ↔ z ∈ m2.sortedKeys)
    (hv : ∀ t ∈ m1.sortedKeys, dictGet t m1.keyVals = dictGet t m2.keyVals)
    (hp : m1.posCnt = m2.posCnt) (hn : m1.negCnt = m2.negCnt)
    (hc : m1.className = m2.className) : m1 = m2 := by
  have hkeys : m1.sortedKeys = m2.sortedKeys := sorted_ext h1.1 h2.1 hk
  have hkv : m1.keyVals = m2.keyVals := by
    apply dict_ext (by rw [h1.2, h2.2, hkeys]) (by rw [h1.2]; exact sorted_nodup h1.1)
    intro t ht
    rw [h1.2] at ht
    exact hv t ht
  cases m1
  cases m2
  simp only [AUCMetrics.mk.injEq]
  exact ⟨hkv, hp, hn, hkeys, hc⟩

/-- Umbrella specification of a successful merge of two well-formed, non-empty
accumulators. -/
theorem add_some_spec {a b ab : AUCMetrics} (hwa : a.wf) (hwb : b.wf)
    (hna : a.sortedKeys ≠ []) (hnb : b.sortedKeys ≠ [])
    (hab : a.add (some b) = some ab) :
    ab.wf ∧ ab.sortedKeys ≠ [] ∧
    (∀ z, z ∈ ab.sortedKeys ↔ z ∈ a.sortedKeys ∨ z ∈ b.sortedKeys) ∧
    ab.className = a.className ∧ ab.posCnt = a.posCnt + b.posCnt ∧
    ab.negCnt = a.negCnt + b.negCnt ∧
    (∀ t, bucketAt ab (getIdx ab t)
      = addPair (bucketAt a (getIdx a t)) (bucketAt b (getIdx b t))) ∧
    (∀ t ∈ ab.sortedKeys, dictGet t ab.keyVals
      = some (addPair (bucketAt a (getIdx a t)) (bucketAt b (getIdx b t)))) := by
  have hcl := add_some_class hab
  have hwab := add_wf hwa hwb hab
  have hablit := hab
  rw [add_char hwa hwb hna hnb hcl] at hablit
  have habne : ab.sortedKeys ≠ [] := by
    cases hablit
    exact mergeSortedNoDupes_ne_left hna
  have hbucket : ∀ t, bucketAt ab (getIdx ab t)
      = addPair (bucketAt a (getIdx a t)) (bucketAt b (getIdx b t)) := by
    intro t
    exact Option.some.inj ((getFpTp_eq_bucketAt hwab habne t).symm.trans
      (add_getFpTp hwa hwb hna hnb hab t))
  refine ⟨hwab, habne, ?_, ?_, ?_, ?_, hbucket, ?_⟩
  · intro z
    cases hablit
    exact mem_mergeSortedNoDupes _ _ z
  · cases hablit
    rfl
  · cases hablit
    rfl
  · cases hablit
    rfl
  · intro t ht
    cases hablit
    exact dictGet_map _ _ t ht

theorem wf_mk_empty (p n cl : ℕ) : (AUCMetrics.mk [] p n [] cl).wf :=
  ⟨List.Pairwise.nil, rfl⟩

theorem auc_add_comm {a b : AUCMetrics} (hwa : a.wf) (hwb : b.wf)
    (hcl : a.className = b.className) :
    a.add (some b) = b.add (some a) := by
  by_cases hna : a.sortedKeys = [] <;> by_cases hnb : b.sortedKeys = []
  · rw [add_empty_empty hna hnb hcl.symm, add_empty_empty hnb hna hcl]
    congr 1
    apply auc_ext (wf_mk_empty _ _ _) (wf_mk_empty _ _ _)
    · intro z
      exact Iff.rfl
    · intro t ht
      cases ht
    · show a.posCnt + b.posCnt = b.posCnt + a.posCnt
      omega
    · show a.negCnt + b.negCnt = b.negCnt + a.negCnt
      omega
    · exact hcl
  · rw [add_fail_left hwa hna hnb hcl.symm, add_fail_right hwa hna hnb hcl]
  · rw [add_fail_right hwb hnb hna hcl.symm, add_fail_left hwb hnb hna hcl]
  · obtain ⟨ab, hab⟩ : ∃ ab, a.add (some b) = some ab :=
      ⟨_, add_char hwa hwb hna hnb hcl.symm⟩
    obtain ⟨ba, hba⟩ : ∃ ba, b.add (some a) = some ba :=
      ⟨_, add_char hwb hwa hnb hna hcl⟩
    obtain ⟨hw1, hne1, hm1, hc1, hp1, hn1, -, hd1⟩ :=
      add_some_spec hwa hwb hna hnb hab
    obtain ⟨hw2, hne2, hm2, hc2, hp2, hn2, -, hd2⟩ :=
      add_some_spec hwb hwa hnb hna hba
    rw [hab, hba]
    congr 1
    apply auc_ext hw1 hw2
    · intro z
      rw [hm1 z, hm2 z]
      exact or_comm
    · intro t ht
      rw [hd1 t ht, hd2 t ((hm2 t).mpr (or_comm.mp ((hm1 t).mp ht))), addPair_comm]
    · omega
    · omega
    · rw [hc1, hc2, hcl]

theorem auc_add_assoc {a b c : AUCMetrics} (hwa : a.wf) (hwb : b.wf)
    (hwc : c.wf) (hab : a.className = b.className) (hbc : b.className = c.className) :
    (a.add (some b)).bind (fun x => x.add (some c))
      = (b.add (some c)).bind (fun x => a.add (some x)) := by
  by_cases hna : a.sortedKeys = [] <;> by_cases hnb : b.sortedKeys = [] <;>
    by_cases hnc : c.sortedKeys = []
  · -- all empty
    rw [add_empty_empty hna hnb hab.symm, add_empty_empty hnb hnc hbc.symm]
    show (AUCMetrics.mk [] (a.posCnt + b.posCnt) (a.negCnt + b.negCnt) []
        a.className).add (some c)
      = a.add (some (AUCMetrics.mk [] (b.posCnt + c.posCnt) (b.negCnt + c.negCnt) []
        b.className))
    rw [add_empty_empty (a := AUCMetrics.mk [] (a.posCnt + b.posCnt)
        (a.negCnt + b.negCnt) [] a.className) (b := c) rfl hnc
        (hbc.symm.trans hab.symm),
      add_empty_empty (a := a)
        (b := AUCMetrics.mk [] (b.posCnt + c.posCnt) (b.negCnt + c.negCnt) []
          b.className) hna rfl hab.symm]
    congr 1
    apply auc_ext (wf_mk_empty _ _ _) (wf_mk_empty _ _ _)
    · intro z
      exact Iff.rfl
    · intro t ht
      cases ht
    · show a.posCnt + b.posCnt + c.posCnt = a.posCnt + (b.posCnt + c.posCnt)
      omega
    · show a.negCnt + b.negCnt + c.negCnt = a.negCnt + (b.negCnt + c.negCnt)
      omega
    · rfl
  · -- a, b empty; c non-empty
    rw [add_empty_empty hna hnb hab.symm,
      add_fail_left hwb hnb hnc hbc.symm]
    show (AUCMetrics.mk [] (a.posCnt + b.posCnt) (a.negCnt + b.negCnt) []
        a.className).add (some c) = none
    rw [add_fail_left (a := AUCMetrics.mk [] (a.posCnt + b.posCnt)
        (a.negCnt + b.negCnt) [] a.className) (b := c) (wf_mk_empty _ _ _) rfl hnc
      (hbc.symm.trans hab.symm)]
  · -- a, c empty; b non-empty
    rw [add_fail_left hwa hna hnb hab.symm,
      add_fail_right hwc hnc hnb hbc.symm]
    rfl
  · -- a empty; b, c non-empty
    rw [add_fail_left hwa hna hnb hab.symm]
    obtain ⟨bc, hbceq⟩ : ∃ bc, b.add (some c) = some bc :=
      ⟨_, add_char hwb hwc hnb hnc hbc.symm⟩
    obtain ⟨-, hne2, -, hc2, -, -, -, -⟩ := add_some_spec hwb hwc hnb hnc hbceq
    rw [hbceq]
    show none = a.add (some bc)
    rw [add_fail_left hwa hna hne2 (show bc.className = a.className from
      hc2.trans hab.symm)]
  · -- b, c empty; a non-empty
    rw [add_fail_right hwb hnb hna hab.symm, add_empty_empty hnb hnc hbc.symm]
    show (none : Option AUCMetrics)
      = a.add (some (AUCMetrics.mk [] (b.posCnt + c.posCnt) (b.negCnt + c.negCnt) []
          b.className))
    rw [add_fail_right (a := a)
        (b := AUCMetrics.mk [] (b.posCnt + c.posCnt) (b.negCnt + c.negCnt) []
          b.className) (wf_mk_empty _ _ _) rfl hna hab.symm]
  · -- b empty; a, c non-empty
    rw [add_fail_right hwb hnb hna hab.symm, add_fail_left hwb hnb hnc hbc.symm]
    rfl
  · -- c empty; a, b non-empty
    obtain ⟨ab, habeq⟩ : ∃ ab, a.add (some b) = some ab :=
      ⟨_, add_char hwa hwb hna hnb hab.symm⟩
    obtain ⟨hw1, hne1, -, hc1, -, -, -, -⟩ := add_some_spec hwa hwb hna hnb habeq
    rw [habeq, add_fail_right hwc hnc hnb hbc.symm]
    show ab.add (some c) = none
    rw [add_fail_right hwc hnc hne1 (show c.className = ab.className from
      (hbc.symm.trans hab.symm).trans hc1.symm)]
  · -- all non-empty
    obtain ⟨ab, habeq⟩ : ∃ ab, a.add (some b) = some ab :=
      ⟨_, add_char hwa hwb hna hnb hab.symm⟩
    obtain ⟨bc, hbceq⟩ : ∃ bc, b.add (some c) = some bc :=
      ⟨_, add_char hwb hwc hnb hnc hbc.symm⟩
    obtain ⟨hw1, hne1, hm1, hc1, hp1, hn1, hbk1, -⟩ :=
      add_some_spec hwa hwb hna hnb habeq
    obtain ⟨hw2, hne2, hm2, hc2, hp2, hn2, hbk2, -⟩ :=
      add_some_spec hwb hwc hnb hnc hbceq
    obtain ⟨l, hleq⟩ : ∃ l, ab.add (some c) = some l :=
      ⟨_, add_char hw1 hwc hne1 hnc (show c.className = ab.className from
        (hbc.symm.trans hab.symm).trans hc1.symm)⟩
    obtain ⟨r, hreq⟩ : ∃ r, a.add (some bc) = some r :=
      ⟨_, add_char hwa hw2 hna hne2 (show bc.className = a.className from
        hc2.trans hab.symm)⟩
    obtain ⟨hwL, -, hmL, hcL, hpL, hnL, -, hdL⟩ :=
      add_some_spec hw1 hwc hne1 hnc hleq
    obtain ⟨hwR, -, hmR, hcR, hpR, hnR, -, hdR⟩ :=
      add_some_spec hwa hw2 hna hne2 hreq
    rw [habeq, hbceq]
    show ab.add (some c) = a.add (some bc)
    rw [hleq, hreq]
    congr 1
    have hmemLR : ∀ z, z ∈ l.sortedKeys ↔ z ∈ r.sortedKeys := by
      intro z
      rw [hmL z, hmR z, hm1 z, hm2 z, or_assoc]
    apply auc_ext hwL hwR hmemLR
    · intro t ht
      rw [hdL t ht, hdR t ((hmemLR t).mp ht), hbk1 t, hbk2 t, addPair_assoc]
    · omega
    · omega
    · rw [hcL, hcR, hc1]

/-- Claim C4: the merge operator is associative and commutative — for
confusion-matrix accumulators of one concrete subtype and for well-formed
`AUCMetrics` with equal class labels — with equality holding for the whole
underlying state (counts, grids, buckets) and hence for `value()`.  For
`AUCMetrics`, failure (`none`) propagates through the composition the way a
raised exception would. -/
theorem C4_merge_assoc_comm :
    (∀ x y z : ConfusionMatrixMetric, x.kind = y.kind → y.kind = z.kind →
      (x.add (some y)).add (some z) = x.add (some (y.add (some z))) ∧
      x.add (some y) = y.add (some x) ∧
      cmValue (x.add (some y)) = cmValue (y.add (some x))) ∧
    (∀ a b c : AUCMetrics, a.wf → b.wf → c.wf →
      a.className = b.className → b.className = c.className →
      (a.add (some b)).bind (fun x => x.add (some c))
        = (b.add (some c)).bind (fun x => a.add (some x)) ∧
      a.add (some b) = b.add (some a) ∧
      ((a.add (some b)).bind (fun x => x.add (some c))).map AUCMetrics.value
        = ((b.add (some c)).bind (fun x => a.add (some x))).map AUCMetrics.value ∧
      (a.add (some b)).map AUCMetrics.value
        = (b.add (some a)).map AUCMetrics.value) := by
  constructor
  · intro x y z hxy hyz
    have hcomm : x.add (some y) = y.add (some x) := by
      simp only [ConfusionMatrixMetric.add, ConfusionMatrixMetric.mk.injEq]
      exact ⟨hxy, add_comm _ _, add_comm _ _, add_comm _ _, add_comm _ _⟩
    refine ⟨?_, hcomm, congrArg cmValue hcomm⟩
    simp only [ConfusionMatrixMetric.add, ConfusionMatrixMetric.mk.injEq]
    exact ⟨trivial, add_assoc _ _ _, add_assoc _ _ _, add_assoc _ _ _, add_assoc _ _ _⟩
  · intro a b c hwa hwb hwc hab hbc
    have hassoc := auc_add_assoc hwa hwb hwc hab hbc
    have hcomm := auc_add_comm hwa hwb hab
    exact ⟨hassoc, hcomm, congrArg (Option.map AUCMetrics.value) hassoc,
      congrArg (Option.map AUCMetrics.value) hcomm⟩

/-- Witness for C4 at concrete accumulators: three `RecallMetric`s and three
well-formed single-threshold `AUCMetrics` sharing class label `0`. -/
theorem C4_witness :
    ((⟨.recall, 1, 2, 3, 4⟩ : ConfusionMatrixMetric).kind
        = (⟨.recall, 5, 6, 7, 8⟩ : ConfusionMatrixMetric).kind ∧
      (⟨.recall, 5, 6, 7, 8⟩ : ConfusionMatrixMetric).kind
        = (⟨.recall, 9, 10, 11, 12⟩ : ConfusionMatrixMetric).kind ∧
      ((⟨.recall, 1, 2, 3, 4⟩ : ConfusionMatrixMetric).add
          (some ⟨.recall, 5, 6, 7, 8⟩)).add (some ⟨.recall, 9, 10, 11, 12⟩)
        = (⟨.recall, 1, 2, 3, 4⟩ : ConfusionMatrixMetric).add
            (some ((⟨.recall, 5, 6, 7, 8⟩ : ConfusionMatrixMetric).add
              (some ⟨.recall, 9, 10, 11, 12⟩))) ∧
      (⟨.recall, 1, 2, 3, 4⟩ : ConfusionMatrixMetric).add (some ⟨.recall, 5, 6, 7, 8⟩)
        = (⟨.recall, 5, 6, 7, 8⟩ : ConfusionMatrixMetric).add
            (some ⟨.recall, 1, 2, 3, 4⟩)) ∧
    ((AUCMetrics.mk [((3:ℚ)/2, (1, 2))] 2 3 [3/2] 0).wf ∧
      (AUCMetrics.mk [((3:ℚ)/2, (4, 5))] 6 7 [3/2] 0).wf ∧
      (AUCMetrics.mk [((3:ℚ)/2, (8, 9))] 10 11 [3/2] 0).wf ∧
      ((AUCMetrics.mk [((3:ℚ)/2, (1, 2))] 2 3 [3/2] 0).add
          (some (AUCMetrics.mk [((3:ℚ)/2, (4, 5))] 6 7 [3/2] 0))).bind
          (fun x => x.add (some (AUCMetrics.mk [((3:ℚ)/2, (8, 9))] 10 11 [3/2] 0)))
        = ((AUCMetrics.mk [((3:ℚ)/2, (4, 5))] 6 7 [3/2] 0).add
            (some (AUCMetrics.mk [((3:ℚ)/2, (8, 9))] 10 11 [3/2] 0))).bind
          (fun x => (AUCMetrics.mk [((3:ℚ)/2, (1, 2))] 2 3 [3/2] 0).add (some x)) ∧
      (AUCMetrics.mk [((3:ℚ)/2, (1, 2))] 2 3 [3/2] 0).add
          (some (AUCMetrics.mk [((3:ℚ)/2, (4, 5))] 6 7 [3/2] 0))
        = (AUCMetrics.mk [((3:ℚ)/2, (4, 5))] 6 7 [3/2] 0).add
            (some (AUCMetrics.mk [((3:ℚ)/2, (1, 2))] 2 3 [3/2] 0))) := by
  have hw1 : (AUCMetrics.mk [((3:ℚ)/2, (1, 2))] 2 3 [3/2] 0).wf :=
    ⟨List.pairwise_singleton _ _, rfl⟩
  have hw2 : (AUCMetrics.mk [((3:ℚ)/2, (4, 5))] 6 7 [3/2] 0).wf :=
    ⟨List.pairwise_singleton _ _, rfl⟩
  have hw3 : (AUCMetrics.mk [((3:ℚ)/2, (8, 9))] 10 11 [3/2] 0).wf :=
    ⟨List.pairwise_singleton _ _, rfl⟩
  have hc := C4_merge_assoc_comm
  obtain ⟨h1, h2, -⟩ := hc.1 ⟨.recall, 1, 2, 3, 4⟩ ⟨.recall, 5, 6, 7, 8⟩
    ⟨.recall, 9, 10, 11, 12⟩ rfl rfl
  obtain ⟨h3, h4, -, -⟩ := hc.2 _ _ _ hw1 hw2 hw3 rfl rfl
  exact ⟨⟨rfl, rfl, h1, h2⟩, hw1, hw2, hw3, h3, h4⟩

theorem cntBucket_antitone (c : ℕ) {t1 t2 : ℚ} (h : t1 ≤ t2) (S : List (ℕ × ℚ)) :
    (cntBucket c t2 S).1 ≤ (cntBucket c t1 S).1 ∧
      (cntBucket c t2 S).2 ≤ (cntBucket c t1 S).2 := by
  constructor <;>
  · apply List.countP_mono_left
    intro s hs hp
    simp only [Bool.and_eq_true, decide_eq_true_eq] at hp ⊢
    exact ⟨hp.1, le_trans h hp.2⟩

theorem raw_mono (d c : ℕ) (S : List (ℕ × ℚ)) : Mono (rawDataToAuc d c S) := by
  by_cases hS : S = []
  · subst hS
    have : rawDataToAuc d c [] = ⟨[], 0, 0, [], c⟩ := by simp [rawDataToAuc]
    rw [this]
    exact List.Pairwise.nil
  · have hwf := raw_wf d c S hS
    have hlen := raw_length_keyVals d c S hS
    unfold Mono
    rw [List.pairwise_iff_getElem]
    intro i j hi hj hij
    have hik : i < (rawDataToAuc d c S).sortedKeys.length := by omega
    have hjk : j < (rawDataToAuc d c S).sortedKeys.length := by omega
    rw [keyVals_snd hi, keyVals_snd hj, raw_bucketAt d c S hS i hik,
      raw_bucketAt d c S hS j hjk]
    apply cntBucket_antitone
    rw [List.getD_eq_getElem _ _ hik, List.getD_eq_getElem _ _ hjk]
    exact le_of_lt (List.pairwise_iff_getElem.mp hwf.1 i j hik hjk hij)

theorem bucketAt_antitone {a : AUCMetrics} (hm : Mono a) {i j : ℕ}
    (hij : i ≤ j) (hj : j < a.keyVals.length) :
    (bucketAt a j).1 ≤ (bucketAt a i).1 ∧ (bucketAt a j).2 ≤ (bucketAt a i).2 := by
  have hi : i < a.keyVals.length := lt_of_le_of_lt hij hj
  rw [← keyVals_snd hi, ← keyVals_snd hj]
  rcases Nat.lt_or_ge i j with h | h
  · exact List.pairwise_iff_getElem.mp hm i j hi hj h
  · have : i = j := le_antisymm hij h
    subst this
    exact ⟨le_refl _, le_refl _⟩

theorem getIdx_mono (a : AUCMetrics) {t1 t2 : ℚ} (h : t1 ≤ t2) :
    getIdx a t1 ≤ getIdx a t2 := by
  unfold getIdx
  have : a.sortedKeys.countP (fun y => decide (y < t1))
      ≤ a.sortedKeys.countP (fun y => decide (y < t2)) := by
    apply List.countP_mono_left
    intro z hz hp
    simp only [decide_eq_true_eq] at hp ⊢
    exact lt_of_lt_of_le hp h
  omega

theorem getIdx_lt_length {a : AUCMetrics} (hne : a.sortedKeys ≠ []) (t : ℚ) :
    getIdx a t < a.sortedKeys.length := by
  have := List.length_pos.mpr hne
  unfold getIdx
  omega

theorem add_mono {a b ab : AUCMetrics} (hwa : a.wf) (hwb : b.wf)
    (hma : Mono a) (hmb : Mono b) (hab : a.add (some b) = some ab) : Mono ab := by
  have hcl := add_some_class hab
  by_cases hna : a.sortedKeys = []
  · by_cases hnb : b.sortedKeys = []
    · rw [add_empty_empty hna hnb hcl] at hab
      cases hab
      exact List.Pairwise.nil
    · rw [add_fail_left hwa hna hnb hcl] at hab
      cases hab
  · by_cases hnb : b.sortedKeys = []
    · rw [add_fail_right hwb hnb hna hcl] at hab
      cases hab
    · have hU : (mergeSortedNoDupes a.sortedKeys b.sortedKeys).Pairwise (· < ·) :=
        mergeSortedNoDupes_pairwise _ _ hwa.1 hwb.1
      rw [add_char hwa hwb hna hnb hcl] at hab
      cases hab
      unfold Mono
      show (List.map (fun t => (t, addPair (bucketAt a (getIdx a t))
        (bucketAt b (getIdx b t)))) (mergeSortedNoDupes a.sortedKeys b.sortedKeys)).Pairwise _
      rw [List.pairwise_map]
      apply hU.imp
      intro t1 t2 hlt
      have hia := getIdx_mono a (le_of_lt hlt)
      have hib := getIdx_mono b (le_of_lt hlt)
      have hja : getIdx a t2 < a.keyVals.length := by
        rw [keyVals_length_eq hwa]
        exact getIdx_lt_length hna t2
      have hjb : getIdx b t2 < b.keyVals.length := by
        rw [keyVals_length_eq hwb]
        exact getIdx_lt_length hnb t2
      have h1 := bucketAt_antitone hma hia hja
      have h2 := bucketAt_antitone hmb hib hjb
      constructor
      · show (addPair (bucketAt a (getIdx a t2)) (bucketAt b (getIdx b t2))).1
          ≤ (addPair (bucketAt a (getIdx a t1)) (bucketAt b (getIdx b t1))).1
        unfold addPair
        exact Nat.add_le_add h1.1 h2.1
      · show (addPair (bucketAt a (getIdx a t2)) (bucketAt b (getIdx b t2))).2
          ≤ (addPair (bucketAt a (getIdx a t1)) (bucketAt b (getIdx b t1))).2
        unfold addPair
        exact Nat.add_le_add h1.2 h2.2

theorem reachable_wf_mono {a : AUCMetrics} (h : Reachable a) : a.wf ∧ Mono a := by
  induction h with
  | raw d c S =>
    by_cases hS : S = []
    · subst hS
      have hred : rawDataToAuc d c [] = ⟨[], 0, 0, [], c⟩ := by simp [rawDataToAuc]
      rw [hred]
      exact ⟨⟨List.Pairwise.nil, rfl⟩, List.Pairwise.nil⟩
    · exact ⟨raw_wf d c S hS, raw_mono d c S⟩
  | merge ha hb hadd iha ihb =>
    exact ⟨add_wf iha.1 ihb.1 hadd, add_mono iha.1 ihb.1 iha.2 ihb.2 hadd⟩

/-- Claim C9: bucket monotonicity is an invariant of every reachable
accumulator (built by `raw_data_to_auc` or by merging reachable ones): for
grid thresholds `t1 < t2` the stored false-positive and true-positive counts
at `t2` are at most those at `t1`. -/
theorem C9_bucket_monotonicity (a : AUCMetrics) (h : Reachable a)
    (t1 t2 : ℚ) (h1 : t1 ∈ a.sortedKeys) (h2 : t2 ∈ a.sortedKeys)
    (hlt : t1 < t2) :
    ∃ v1 v2, dictGet t1 a.keyVals = some v1 ∧ dictGet t2 a.keyVals = some v2 ∧
      v2.1 ≤ v1.1 ∧ v2.2 ≤ v1.2 := by
  obtain ⟨hwf, hmono⟩ := reachable_wf_mono h
  have hnd : (a.keyVals.map Prod.fst).Nodup := by
    rw [hwf.2]
    exact sorted_nodup hwf.1
  obtain ⟨hi1, hg1⟩ := getElem_countP_lt hwf.1 h1
  obtain ⟨hi2, hg2⟩ := getElem_countP_lt hwf.1 h2
  set i1 := a.sortedKeys.countP (fun y => decide (y < t1)) with hi1def
  set i2 := a.sortedKeys.countP (fun y => decide (y < t2)) with hi2def
  have hi1kv : i1 < a.keyVals.length := by
    rw [keyVals_length_eq hwf]
    exact hi1
  have hi2kv : i2 < a.keyVals.length := by
    rw [keyVals_length_eq hwf]
    exact hi2
  have hfst1 : a.keyVals[i1].1 = t1 := by
    rw [keyVals_fst hwf hi1kv, List.getD_eq_getElem _ _ hi1, hg1]
  have hfst2 : a.keyVals[i2].1 = t2 := by
    rw [keyVals_fst hwf hi2kv, List.getD_eq_getElem _ _ hi2, hg2]
  have hd1 := dictGet_getElem hnd hi1kv
  have hd2 := dictGet_getElem hnd hi2kv
  rw [hfst1] at hd1
  rw [hfst2] at hd2
  have hidx : i1 < i2 := by
    have hle : a.sortedKeys.countP (fun y => decide (y ≤ t1))
        ≤ a.sortedKeys.countP (fun y => decide (y < t2)) := by
      apply List.countP_mono_left
      intro z hz hp
      simp only [decide_eq_true_eq] at hp ⊢
      exact lt_of_le_of_lt hp hlt
    rw [countP_le_eq_countP_lt_add_count, count_mem_sorted hwf.1, if_pos h1] at hle
    omega
  have hrel := List.pairwise_iff_getElem.mp hmono i1 i2 hi1kv hi2kv hidx
  exact ⟨a.keyVals[i1].2, a.keyVals[i2].2, hd1, hd2, hrel.1, hrel.2⟩

/-- Witness for C9 at the accumulator built from one positive sample with
probability `0.5` (decimal precision 1): thresholds `0.5 < 1.5` carry buckets
`(0, 1)` and `(0, 0)`. -/
theorem C9_witness :
    Reachable (rawDataToAuc 1 0 [(0, 1/2)]) ∧
    (1/2 : ℚ) ∈ (rawDataToAuc 1 0 [(0, 1/2)]).sortedKeys ∧
    (3/2 : ℚ) ∈ (rawDataToAuc 1 0 [(0, 1/2)]).sortedKeys ∧
    (1/2 : ℚ) < 3/2 ∧
    (∃ v1 v2, dictGet (1/2) (rawDataToAuc 1 0 [(0, 1/2)]).keyVals = some v1 ∧
      dictGet (3/2) (rawDataToAuc 1 0 [(0, 1/2)]).keyVals = some v2 ∧
      v2.1 ≤ v1.1 ∧ v2.2 ≤ v1.2) := by
  have hkeys : (rawDataToAuc 1 0 [(0, 1/2)]).sortedKeys = [1/2, 3/2] := by
    norm_num [rawDataToAuc, threshCands, sortedSet, insertSortedDedup, floorProb, ceilProb]
  have hr : Reachable (rawDataToAuc 1 0 [(0, 1/2)]) := Reachable.raw 1 0 [(0, 1/2)]
  have hm1 : (1/2 : ℚ) ∈ (rawDataToAuc 1 0 [(0, 1/2)]).sortedKeys := by
    rw [hkeys]
    simp
  have hm2 : (3/2 : ℚ) ∈ (rawDataToAuc 1 0 [(0, 1/2)]).sortedKeys := by
    rw [hkeys]
    simp
  have hlt : (1/2 : ℚ) < 3/2 := by norm_num
  exact ⟨hr, hm1, hm2, hlt,
    C9_bucket_monotonicity (rawDataToAuc 1 0 [(0, 1/2)]) hr (1/2) (3/2) hm1 hm2 hlt⟩

/-! ## Representation invariant for grid invariance -/

theorem pow_ten_pos (d : ℕ) : (0 : ℚ) < 10 ^ d := by positivity

theorem threshCands_aligned (d : ℕ) (S : List (ℕ × ℚ)) :
    ∀ x ∈ threshCands d S, Aligned15 d x := by
  intro x hx
  rcases List.mem_cons.mp hx with rfl | hx2
  · exact Or.inr rfl
  · obtain ⟨s, hs, hxs⟩ := List.mem_flatMap.mp hx2
    rcases List.mem_cons.mp hxs with rfl | hxs2
    · exact Or.inl ⟨⌊s.2 * 10 ^ d⌋, rfl⟩
    · rcases List.mem_cons.mp hxs2 with rfl | hxs3
      · exact Or.inl ⟨⌈s.2 * 10 ^ d⌉, rfl⟩
      · cases hxs3

theorem floorProb_le (d : ℕ) (p : ℚ) : floorProb d p ≤ p := by
  unfold floorProb
  rw [div_le_iff₀ (pow_ten_pos d)]
  exact Int.floor_le _

theorem le_ceilProb (d : ℕ) (p : ℚ) : p ≤ ceilProb d p := by
  unfold ceilProb
  rw [le_div_iff₀ (pow_ten_pos d)]
  exact Int.le_ceil _

theorem aligned_le_floorProb {d : ℕ} {z : ℤ} {p : ℚ}
    (h : ((z : ℚ) / 10 ^ d) ≤ p) : ((z : ℚ) / 10 ^ d) ≤ floorProb d p := by
  unfold floorProb
  rw [div_le_div_iff_of_pos_right (pow_ten_pos d)]
  rw [div_le_iff₀ (pow_ten_pos d)] at h
  exact_mod_cast Int.le_floor.mpr h

/-- The key `_get_fp_tp` snaps a grid-aligned query `t` to collects exactly
the samples with probability at or above `t`, for any sample whose floor
candidate is on the grid and whose probability is below the sentinel. -/
theorem rawKey_snap {d : ℕ} {K : List ℚ} (hK : K.Pairwise (· < ·))
    (h15 : (3 / 2 : ℚ) ∈ K) {t : ℚ} (ht : Aligned15 d t)
    {p : ℚ} (hp : p < 3 / 2) (hfloor : floorProb d p ∈ K) :
    (K.getD (min (K.countP (fun y => decide (y < t))) (K.length - 1)) 0 ≤ p
      ↔ t ≤ p) := by
  have hKne : K ≠ [] := fun h => by rw [h] at h15; cases h15
  have hKlen : 0 < K.length := List.length_pos.mpr hKne
  by_cases hc : K.countP (fun y => decide (y < t)) < K.length
  · have hmin : min (K.countP (fun y => decide (y < t))) (K.length - 1)
        = K.countP (fun y => decide (y < t)) := by omega
    rw [hmin, List.getD_eq_getElem K 0 hc]
    obtain ⟨hge, hminimal⟩ := leastGE hK t hc
    constructor
    · intro hkp
      exact le_trans hge hkp
    · intro htp
      by_cases hmem : t ∈ K
      · obtain ⟨hlt2, hget⟩ := getElem_countP_lt hK hmem
        rw [hget]
        exact htp
      · rcases ht with ⟨z, rfl⟩ | rfl
        · have h1 : ((z : ℚ) / 10 ^ d) ≤ floorProb d p := aligned_le_floorProb htp
          exact le_trans (hminimal _ hfloor h1) (floorProb_le d p)
        · exact absurd h15 hmem
  · push_neg at hc
    have hall : ∀ u ∈ K, u < t := by
      have hle : K.countP (fun y => decide (y < t)) ≤ K.length :=
        List.countP_le_length _
      intro u hu
      have := List.countP_eq_length.mp (le_antisymm hle hc) u hu
      simpa using this
    have ht15 : (3 / 2 : ℚ) < t := hall _ h15
    have hmin : min (K.countP (fun y => decide (y < t))) (K.length - 1)
        = K.length - 1 := by omega
    rw [hmin]
    have hlast : (3 / 2 : ℚ) ≤ K.getD (K.length - 1) 0 := sorted_le_last hK hKne h15
    constructor
    · intro hcon
      exact absurd (lt_of_le_of_lt (le_trans hlast hcon) hp) (lt_irrefl _)
    · intro hcon
      exact absurd (lt_of_le_of_lt hcon hp) (not_lt_of_ge (le_of_lt ht15))

theorem raw_rep (d c : ℕ) (S : List (ℕ × ℚ)) (hS : S ≠ [])
    (hprob : ∀ x ∈ S, x.2 < 3 / 2) : RepInv d c S (rawDataToAuc d c S) := by
  obtain ⟨hk, hcl, hpos, hneg, -⟩ := raw_fields d c S hS
  have hwf := raw_wf d c S hS
  have hmem : ∀ z, z ∈ (rawDataToAuc d c S).sortedKeys ↔ z ∈ threshCands d S := by
    intro z
    rw [hk]
    exact (sortedSet_spec _).2 z
  have h15 : (3 / 2 : ℚ) ∈ (rawDataToAuc d c S).sortedKeys :=
    (hmem _).mpr (List.mem_cons_self _ _)
  have hKne : (rawDataToAuc d c S).sortedKeys ≠ [] := List.ne_nil_of_mem h15
  refine ⟨hwf, hKne, hcl, hpos, hneg, hmem, ?_⟩
  intro t ht
  rw [getFpTp_eq_bucketAt hwf hKne t]
  congr 1
  have hjlt : getIdx (rawDataToAuc d c S) t < (rawDataToAuc d c S).sortedKeys.length :=
    getIdx_lt_length hKne t
  rw [raw_bucketAt d c S hS _ hjlt]
  have hsnap : ∀ s ∈ S,
      ((rawDataToAuc d c S).sortedKeys.getD (getIdx (rawDataToAuc d c S) t) 0 ≤ s.2
        ↔ t ≤ s.2) := by
    intro s hs
    have hfloor : floorProb d s.2 ∈ (rawDataToAuc d c S).sortedKeys := by
      apply (hmem _).mpr
      apply List.mem_cons_of_mem
      exact List.mem_flatMap.mpr ⟨s, hs, List.mem_cons_self _ _⟩
    exact rawKey_snap hwf.1 h15 ht (hprob s hs) hfloor
  unfold cntBucket
  rw [Prod.ext_iff]
  constructor <;>
  · apply List.countP_congr
    intro s hs
    simp only [Bool.and_eq_true, decide_eq_true_eq]
    rw [hsnap s hs]

theorem cntBucket_append (c : ℕ) (t : ℚ) (S1 S2 : List (ℕ × ℚ)) :
    cntBucket c t (S1 ++ S2) = addPair (cntBucket c t S1) (cntBucket c t S2) := by
  unfold cntBucket addPair
  rw [List.countP_append, List.countP_append]

theorem add_rep {d c : ℕ} {S1 S2 : List (ℕ × ℚ)} {a b : AUCMetrics}
    (h1 : RepInv d c S1 a) (h2 : RepInv d c S2 b) :
    ∃ ab, a.add (some b) = some ab ∧ RepInv d c (S1 ++ S2) ab := by
  obtain ⟨hw1, hne1, hc1, hp1, hn1, hm1, hg1⟩ := h1
  obtain ⟨hw2, hne2, hc2, hp2, hn2, hm2, hg2⟩ := h2
  have hcl : b.className = a.className := hc2.trans hc1.symm
  obtain ⟨ab, hab⟩ : ∃ ab, a.add (some b) = some ab :=
    ⟨_, add_char hw1 hw2 hne1 hne2 hcl⟩
  obtain ⟨hwab, habne, hmab, hcab, hpab, hnab, hbk, -⟩ :=
    add_some_spec hw1 hw2 hne1 hne2 hab
  refine ⟨ab, hab, hwab, habne, hcab.trans hc1, ?_, ?_, ?_, ?_⟩
  · rw [hpab, hp1, hp2, List.countP_append]
  · rw [hnab, hn1, hn2, List.countP_append, List.length_append]
    have e1 := List.countP_le_length (l := S1) (p := fun s => decide (c = s.1))
    have e2 := List.countP_le_length (l := S2) (p := fun s => decide (c = s.1))
    omega
  · intro z
    rw [hmab z, hm1 z, hm2 z]
    unfold threshCands
    rw [List.flatMap_append]
    simp only [List.mem_cons, List.mem_append]
    tauto
  · intro t ht
    have hga := hg1 t ht
    have hgb := hg2 t ht
    rw [getFpTp_eq_bucketAt hw1 hne1 t] at hga
    rw [getFpTp_eq_bucketAt hw2 hne2 t] at hgb
    rw [getFpTp_eq_bucketAt hwab habne t, hbk t, Option.some.inj hga,
      Option.some.inj hgb, cntBucket_append]

theorem dictGet_eq_getFpTp_of_mem {a : AUCMetrics} (hwf : a.wf)
    {t : ℚ} (ht : t ∈ a.sortedKeys) : dictGet t a.keyVals = a.getFpTp t := by
  have hmem : t ∈ a.keyVals.map Prod.fst := by
    rw [hwf.2]
    exact ht
  have hne : dictGet t a.keyVals ≠ none := by
    intro h
    rw [dictGet_eq_none_iff] at h
    exact h hmem
  obtain ⟨v, hv⟩ := Option.ne_none_iff_exists'.mp hne
  rw [hv]
  unfold AUCMetrics.getFpTp
  rw [hv]

theorem rep_unique {d c : ℕ} {S : List (ℕ × ℚ)} {m1 m2 : AUCMetrics}
    (h1 : RepInv d c S m1) (h2 : RepInv d c S m2) : m1 = m2 := by
  obtain ⟨hw1, hne1, hc1, hp1, hn1, hm1, hg1⟩ := h1
  obtain ⟨hw2, hne2, hc2, hp2, hn2, hm2, hg2⟩ := h2
  apply auc_ext hw1 hw2
  · intro z
    rw [hm1 z, hm2 z]
  · intro t ht
    have hal : Aligned15 d t := threshCands_aligned d S t ((hm1 t).mp ht)
    have ht2 : t ∈ m2.sortedKeys := (hm2 t).mpr ((hm1 t).mp ht)
    rw [dictGet_eq_getFpTp_of_mem hw1 ht, dictGet_eq_getFpTp_of_mem hw2 ht2,
      hg1 t hal, hg2 t hal]
  · rw [hp1, hp2]
  · rw [hn1, hn2]
  · rw [hc1, hc2]

theorem foldl_merge_rep {d c : ℕ} {S0 : List (ℕ × ℚ)} {m : AUCMetrics}
    (h0 : RepInv d c S0 m) (L : List (List (ℕ × ℚ)))
    (hL : ∀ s ∈ L, s ≠ [] ∧ ∀ x ∈ s, x.2 < 3 / 2) :
    ∃ mf, (L.map (rawDataToAuc d c)).foldl
        (fun acc x => acc.bind (fun a => a.add (some x))) (some m) = some mf ∧
      RepInv d c (S0 ++ L.flatten) mf := by
  induction L generalizing S0 m with
  | nil =>
    refine ⟨m, rfl, ?_⟩
    simpa using h0
  | cons s rest ih =>
    have hs := hL s (List.mem_cons_self _ _)
    have hreps := raw_rep d c s hs.1 hs.2
    obtain ⟨ab, hab, habr⟩ := add_rep h0 hreps
    obtain ⟨mf, hmf, hmfr⟩ :=
      ih habr (fun s2 hs2 => hL s2 (List.mem_cons_of_mem _ hs2))
    refine ⟨mf, ?_, ?_⟩
    · rw [List.map_cons, List.foldl_cons, Option.some_bind, hab]
      exact hmf
    · rw [List.flatten_cons, ← List.append_assoc]
      exact hmfr

/-- C1: AUC grid-invariance. For any partition of a `(label, probability)`
dataset into non-empty shards (probabilities lie in `[0, 1]`, and overall
there is at least one positive and one negative example), building an
`AUCMetrics` per shard with `raw_data_to_auc` and merging them all with `+`
yields an accumulator that is *equal* to the one `raw_data_to_auc` builds
over the whole dataset at once — hence `value()` agrees exactly, not merely
within floating-point tolerance. -/
theorem C1_auc_grid_invariance (d c : ℕ) (L : List (List (ℕ × ℚ)))
    (hL : L ≠ []) (hne : ∀ s ∈ L, s ≠ [])
    (hprob : ∀ s ∈ L, ∀ x ∈ s, 0 ≤ x.2 ∧ x.2 ≤ 1)
    (hpos : 0 < L.flatten.countP (fun x => decide (c = x.1)))
    (hneg : L.flatten.countP (fun x => decide (c = x.1)) < L.flatten.length) :
    mergeAll (L.map (rawDataToAuc d c)) = some (rawDataToAuc d c L.flatten) ∧
    (mergeAll (L.map (rawDataToAuc d c))).map AUCMetrics.value =
      some ((rawDataToAuc d c L.flatten).value) := by
  have hlt : ∀ s ∈ L, s ≠ [] ∧ ∀ x ∈ s, x.2 < 3 / 2 := by
    intro s hsm
    refine ⟨hne s hsm, fun x hx => ?_⟩
    have := (hprob s hsm x hx).2
    linarith
  match L, hL with
  | s :: rest, _ =>
    have hs := hlt s (List.mem_cons_self _ _)
    have hmerge : mergeAll ((s :: rest).map (rawDataToAuc d c)) =
        (rest.map (rawDataToAuc d c)).foldl
          (fun acc x => acc.bind (fun a => a.add (some x)))
          (some (rawDataToAuc d c s)) := by
      rw [List.map_cons]
      rfl
    obtain ⟨mf, hmf, hmfr⟩ :=
      foldl_merge_rep (raw_rep d c s hs.1 hs.2) rest
        (fun s2 hs2 => hlt s2 (List.mem_cons_of_mem _ hs2))
    have hflat : (s :: rest).flatten = s ++ rest.flatten := List.flatten_cons
    have hfne : (s :: rest).flatten ≠ [] := by
      rw [hflat]
      exact fun h => hs.1 (List.append_eq_nil.mp h).1
    have hfprob : ∀ x ∈ (s :: rest).flatten, x.2 < 3 / 2 := by
      intro x hx
      obtain ⟨s2, hs2, hxs2⟩ := List.mem_flatten.mp hx
      exact (hlt s2 hs2).2 x hxs2
    have hraw := raw_rep d c (s :: rest).flatten hfne hfprob
    rw [hflat] at hraw
    have hmf_eq : mf = rawDataToAuc d c (s :: rest).flatten := by
      rw [hflat]
      exact rep_unique hmfr hraw
    have hmain : mergeAll ((s :: rest).map (rawDataToAuc d c)) =
        some (rawDataToAuc d c (s :: rest).flatten) := by
      rw [hmerge, hmf, hmf_eq]
    refine ⟨hmain, ?_⟩
    rw [hmain]
    rfl

theorem C1_witness :
    mergeAll ([[((0 : ℕ), (1 / 2 : ℚ))], [(1, 1 / 4)]].map (rawDataToAuc 1 0)) =
      some (rawDataToAuc 1 0 [[((0 : ℕ), (1 / 2 : ℚ))], [(1, 1 / 4)]].flatten) ∧
    (mergeAll ([[((0 : ℕ), (1 / 2 : ℚ))], [(1, 1 / 4)]].map (rawDataToAuc 1 0))).map
        AUCMetrics.value =
      some ((rawDataToAuc 1 0 [[((0 : ℕ), (1 / 2 : ℚ))], [(1, 1 / 4)]].flatten).value) :=
  C1_auc_grid_invariance 1 0 [[(0, 1 / 2)], [(1, 1 / 4)]]
    (by simp) (by simp) (by norm_num)
    (by norm_num [List.countP_cons, List.countP_nil])
    (by norm_num [List.countP_cons, List.countP_nil])

end ParlAI
